import Mathlib

/-!
Shallow embedding of the repository `Regex_FSM` (file `regex_fsm.py`):
a restricted regular-expression compiler producing a graph of states
(an NFA with one node per pattern atom), plus a matcher that simulates the
NFA by propagating a list of active states, a tokenizer, a character-class
resolver, and a DOT exporter.

Python objects are modelled by an arena: states are natural-number indices
into two parallel lists (`kinds`, `nexts`); mutation of `state.next_states`
becomes a functional update of the arena.  Python exceptions become an
`Except` value over the specification's error taxonomy.
-/

/-- Error taxonomy of the specification (§7), mapped onto the concrete raise
sites of `regex_fsm.py`:
`syntaxError` is the `ValueError` raised in `get_tokens_from_pattern`
(message: If pattern has [, it should also have ]);
`formatError` is the `ValueError` raised in `get_symbols_from_class`
(message: Input must be in the format [..]);
`unsupportedTokenError` is the `AttributeError` raised in `__init_next_state`
(message: Character is not supported);
`typeError` is the error raised by `check_string` on non-string input
(in the source a `ValueError` with message: Regex pattern should be string). -/
inductive RegexError where
  | syntaxError
  | formatError
  | unsupportedTokenError
  | typeError
deriving DecidableEq, Repr

/-- Python `string.printable`: digits, ASCII letters, punctuation and the six
whitespace characters (space, tab, newline, carriage return, vertical tab,
form feed).  As a set of characters this is exactly the code points
`0x20`..`0x7E` together with 9, 10, 11, 12, 13 (100 characters); only
membership in this list is ever used (the source turns it into a `set`). -/
def string_printable : List Char :=
  (List.range 95).map (fun k => Char.ofNat (32 + k)) ++
    [Char.ofNat 9, Char.ofNat 10, Char.ofNat 13, Char.ofNat 11, Char.ofNat 12]

/-- Python `chr(c) for c in range(ord(start), ord(stop) + 1)`: the inclusive
code-point range; empty when `start > stop` (Nat subtraction). -/
def char_range (start stop : Char) : List Char :=
  (List.range (stop.toNat + 1 - start.toNat)).map (fun k => Char.ofNat (start.toNat + k))

/-- The scanning `while` loop of `get_symbols_from_class`: a triple
`content[i], '-', content[i+2]` (which must fit inside the list, matching the
Python guard `i + 2 < len(content) and content[i+1] == "-"`) is expanded as an
inclusive range; any other character is added singly.  The Python code
accumulates into a `set`; here duplicates may stay in the list, which is
membership-equivalent. -/
def collect_allowed : List Char → List Char
  | [] => []
  | [a] => [a]
  | [a, b] => a :: collect_allowed [b]
  | a :: b :: c :: rest =>
    if b = '-' then char_range a c ++ collect_allowed rest
    else a :: collect_allowed (b :: c :: rest)

/-- Python `content.startswith("^")` handling of `get_symbols_from_class`:
strip one leading `^` and record whether it was present. -/
def strip_negate (content : List Char) : Bool × List Char :=
  match content with
  | c :: rest => if c = '^' then (true, rest) else (false, content)
  | [] => (false, content)

/-- The `.ok` payload of `get_symbols_from_class`: extract the content
between the brackets (`char_class[1:-1]`), strip an optional negation marker,
scan the content, and complement within `string_printable` when negated
(the Python `list(all_chars - allowed)`, membership-equivalent). -/
def class_symbols (char_class : List Char) : List Char :=
  let negate_content := strip_negate ((char_class.drop 1).dropLast)
  let allowed := collect_allowed negate_content.2
  if negate_content.1 then
    string_printable.filter (fun c => ¬ allowed.contains c)
  else allowed

/-- `CharacterBracketClassState.get_symbols_from_class`.  The format check is
Python's `char_class.startswith("[") and char_class.endswith("]")`. -/
def get_symbols_from_class (char_class : List Char) : Except RegexError (List Char) :=
  if char_class.head? = some '[' ∧ char_class.getLast? = some ']' then
    .ok (class_symbols char_class)
  else
    .error .formatError

/-- The closed set of state classes of the source: `StartState`,
`TerminationState`, `DotState`, `AsciiState` (its `symbol` field is the whole
token string) and `CharacterBracketClassState` (carrying the original token
and the precomputed `symbols`). -/
inductive StateKind where
  | startState
  | terminationState
  | dotState
  | asciiState (symbol : List Char)
  | bracketClassState (character_class : List Char) (symbols : List Char)
deriving DecidableEq, Repr

/-- The `check_self` methods.  `StartState.check_self` calls the abstract
method, whose body is `pass`, so it returns the falsy `None`: modelled as
`false`.  `AsciiState.check_self` is `curr_char == self.symbol` with
`curr_char` a one-character string. -/
def check_self : StateKind → Char → Bool
  | .startState, _ => false
  | .terminationState, _ => true
  | .dotState, _ => true
  | .asciiState symbol, c => [c] == symbol
  | .bracketClassState _ symbols, c => symbols.contains c

/-- The automaton: an arena of states.  Index `i` has class `kinds[i]` and
outgoing-edge list `nexts[i]` (the `next_states` attribute, holding
destination indices in insertion order, duplicates included).  Index 0 is
always the `StartState` created in `RegexFSM.__init__`. -/
structure RegexFSM where
  kinds : List StateKind
  nexts : List (List Nat)
deriving DecidableEq, Repr

def RegexFSM.size (m : RegexFSM) : Nat := m.kinds.length

/-- The class of state `i` (reads out of range never occur on built automata). -/
def RegexFSM.kindAt (m : RegexFSM) (i : Nat) : StateKind := m.kinds.getD i .startState

/-- The `next_states` list of state `i`. -/
def RegexFSM.nextAt (m : RegexFSM) (i : Nat) : List Nat := m.nexts.getD i []

/-- Allocate a fresh state (Python: constructing a `State` object, whose
`__init__` sets `next_states = []`); returns the new arena and the index. -/
def add_state (m : RegexFSM) (k : StateKind) : RegexFSM × Nat :=
  (⟨m.kinds ++ [k], m.nexts ++ [[]]⟩, m.kinds.length)

/-- Python `src.next_states.append(dst)`. -/
def add_edge (m : RegexFSM) (src dst : Nat) : RegexFSM :=
  ⟨m.kinds, m.nexts.set src (m.nexts.getD src [] ++ [dst])⟩

/-- The wiring loop `for state in new_prev_states: state.next_states.append(new_state)`. -/
def add_edges (m : RegexFSM) (srcs : List Nat) (dst : Nat) : RegexFSM :=
  srcs.foldl (fun acc s => add_edge acc s dst) m

/-- The builder state threaded through `RegexFSM.__init__`: the arena, plus
the `prev_states`, `tmp_next_state` and `necessary` variables. -/
structure BuildState where
  fsm : RegexFSM
  prev_states : List Nat
  tmp_next_state : Nat
  necessary : Bool
deriving DecidableEq, Repr

/-- The sentinel token passed for the final builder step: the character list
of the Python string TERMINATION.  No tokenizer output ever equals it, since
tokens are single characters or start with a bracket. -/
def termination_token : List Char :=
  ['T', 'E', 'R', 'M', 'I', 'N', 'A', 'T', 'I', 'O', 'N']

/-- `RegexFSM.__init_next_state`, one `match` arm per Python `case`, in source
order.  Concrete-state cases allocate a state and, since the new `necessary`
is true, wire every member of `new_prev_states` to it; quantifier cases have
`necessary = False`, so no forward wiring happens. -/
def init_next_state (st : BuildState) (next_token : List Char) :
    Except RegexError BuildState :=
  if next_token.head? = some '[' ∧ next_token.getLast? = some ']' then
    match get_symbols_from_class next_token with
    | .error e => .error e
    | .ok symbols =>
      let fsm_new := add_state st.fsm (.bracketClassState next_token symbols)
      let new_prev_states := if st.necessary then [st.tmp_next_state] else st.prev_states
      .ok ⟨add_edges fsm_new.1 new_prev_states fsm_new.2, new_prev_states, fsm_new.2, true⟩
  else if next_token = termination_token then
    let fsm_new := add_state st.fsm .terminationState
    let new_prev_states := if st.necessary then [st.tmp_next_state] else st.prev_states
    .ok ⟨add_edges fsm_new.1 new_prev_states fsm_new.2, new_prev_states, fsm_new.2, true⟩
  else if next_token = ['.'] then
    let fsm_new := add_state st.fsm .dotState
    let new_prev_states := if st.necessary then [st.tmp_next_state] else st.prev_states
    .ok ⟨add_edges fsm_new.1 new_prev_states fsm_new.2, new_prev_states, fsm_new.2, true⟩
  else if next_token = ['*'] then
    .ok ⟨add_edge st.fsm st.tmp_next_state st.tmp_next_state,
        st.prev_states ++ [st.tmp_next_state], st.tmp_next_state, false⟩
  else if next_token = ['+'] then
    .ok ⟨add_edge st.fsm st.tmp_next_state st.tmp_next_state,
        [st.tmp_next_state], st.tmp_next_state, false⟩
  else if next_token = ['?'] then
    .ok ⟨st.fsm, st.prev_states ++ [st.tmp_next_state], st.tmp_next_state, false⟩
  else if next_token.all (fun c => c.toNat < 128) then
    let fsm_new := add_state st.fsm (.asciiState next_token)
    let new_prev_states := if st.necessary then [st.tmp_next_state] else st.prev_states
    .ok ⟨add_edges fsm_new.1 new_prev_states fsm_new.2, new_prev_states, fsm_new.2, true⟩
  else
    .error .unsupportedTokenError

/-- The scanning loop of `get_tokens_from_pattern`, as explicit state passing:
`none` is the outer `while stack:` loop, `some acc` is the inner bracket loop
with `acc` the token accumulated so far.  The inner loop raises exactly when
the stack becomes empty right after a character (closing bracket included)
was consumed into the token; a `[` that is the final character never enters
the inner loop and is emitted as a one-character token. -/
def tokenize_go : Option (List Char) → List Char → Except RegexError (List (List Char))
  | none, [] => .ok []
  | none, c :: rest =>
    if c = '[' then
      match rest with
      | [] => .ok [['[']]
      | _ :: _ => tokenize_go (some ['[']) rest
    else
      match tokenize_go none rest with
      | .error e => .error e
      | .ok toks => .ok ([c] :: toks)
  | some acc, [] => .ok [acc]
  | some acc, c :: rest =>
    match rest with
    | [] => .error .syntaxError
    | _ :: _ =>
      if c = ']' then
        match tokenize_go none rest with
        | .error e => .error e
        | .ok toks => .ok ((acc ++ [c]) :: toks)
      else tokenize_go (some (acc ++ [c])) rest

/-- `RegexFSM.get_tokens_from_pattern`. -/
def get_tokens_from_pattern (regex_pattern : List Char) :
    Except RegexError (List (List Char)) :=
  tokenize_go none regex_pattern

/-- The `for token in tokens:` loop of `RegexFSM.__init__`. -/
def build_loop (st : BuildState) : List (List Char) → Except RegexError BuildState
  | [] => .ok st
  | t :: ts =>
    match init_next_state st t with
    | .error e => .error e
    | .ok st2 => build_loop st2 ts

/-- The initial builder state: the arena holding only the `StartState`,
`prev_states = [curr_state]`, `tmp_next_state = curr_state`, `necessary = True`. -/
def build_start : BuildState := ⟨⟨[.startState], [[]]⟩, [0], 0, true⟩

/-- The token loop of `RegexFSM.__init__` followed by the final
`TERMINATION` step; returns the finished arena. -/
def build_fsm (tokens : List (List Char)) : Except RegexError RegexFSM :=
  match build_loop build_start tokens with
  | .error e => .error e
  | .ok st1 =>
    match init_next_state st1 termination_token with
    | .error e => .error e
    | .ok st2 => .ok st2.fsm

/-- `RegexFSM.__init__`: tokenize, then build. -/
def regex_fsm_init (regex_expr : List Char) : Except RegexError RegexFSM := do
  build_fsm (← get_tokens_from_pattern regex_expr)

/-- `State.check_next` (overridden by `TerminationState` to return `[]`):
the successors of `i` whose `check_self` accepts `next_char`. -/
def check_next (m : RegexFSM) (i : Nat) (next_char : Char) : List Nat :=
  match m.kindAt i with
  | .terminationState => []
  | _ => (m.nextAt i).filter (fun j => check_self (m.kindAt j) next_char)

/-- The character loop of `check_string`: the list of active states after
consuming `s`, starting from `[curr_state]` (index 0). -/
def run_states (m : RegexFSM) (s : List Char) : List Nat :=
  s.foldl (fun states c => states.flatMap (fun i => check_next m i c)) [0]

def is_termination : StateKind → Bool
  | .terminationState => true
  | _ => false

/-- Matcher input: either a string or a value of any other runtime type
(the `isinstance(message, str)` check). -/
inductive MatcherInput where
  | str (s : List Char)
  | nonString
deriving DecidableEq, Repr

/-- `RegexFSM.check_string`: type check, active-state propagation, then
acceptance — some active state has a `TerminationState` successor. -/
def check_string (m : RegexFSM) (message : MatcherInput) : Except RegexError Bool :=
  match message with
  | .nonString => .error .typeError
  | .str s =>
    let states := run_states m s
    .ok (states.any (fun i => (m.nextAt i).any (fun j => is_termination (m.kindAt j))))

/-- Convenience composition used by the repository's tests:
construct the automaton for a pattern and run the matcher on a string. -/
def compile_and_check (p s : List Char) : Except RegexError Bool := do
  let m ← regex_fsm_init p
  check_string m (.str s)

/-- A token the builder handles without raising: a bracket-shaped token, or
any token whose characters are all ASCII (Python `str.isascii`); every
`case` of `__init_next_state` other than the final raise is subsumed by this
disjunction, and every token outside it reaches the raise. -/
def supported_token (t : List Char) : Bool :=
  (t.head? == some '[' && t.getLast? == some ']') ||
    t.all (fun c => decide (c.toNat < 128))

/-- The apostrophe character, used inside exporter labels. -/
def quote_char : String := String.mk [Char.ofNat 39]

/-- The local function `get_node_label` of `to_dot_file`. -/
def get_node_label (k : StateKind) : String :=
  match k with
  | .asciiState symbol => "Ascii(" ++ quote_char ++ String.mk symbol ++ quote_char ++ ")"
  | .bracketClassState cls _ => "CharClass(" ++ quote_char ++ String.mk cls ++ quote_char ++ ")"
  | .dotState => "Dot"
  | .startState => "Start"
  | .terminationState => "Termination"

/-- The local function `get_weight` of `to_dot_file` (the `else` branch
returns the integer 0, rendered as the text 0 by the f-string). -/
def get_weight (k : StateKind) : String :=
  match k with
  | .asciiState symbol => "If" ++ "(" ++ String.mk symbol ++ ")"
  | .bracketClassState cls _ => "If(" ++ String.mk cls ++ ")"
  | .dotState => "Any"
  | .terminationState => "Any"
  | .startState => "0"

/-- The mutable locals of the `to_dot_file` breadth-first traversal:
`state_ids` (state index to node number), the accumulated `dot_lines`,
the `queue`, and the `node_id` counter.  `visited` is threaded separately. -/
structure DotSt where
  ids : List (Nat × Nat)
  node_id : Nat
  lines : List String
  queue : List Nat
deriving DecidableEq, Repr

/-- Dictionary lookup in `state_ids` (states are hashed by identity, which is
the arena index here). -/
def lookup_id (ids : List (Nat × Nat)) (i : Nat) : Option Nat :=
  (ids.find? (fun p => p.1 == i)).map (fun p => p.2)

/-- Python `if s not in state_ids: state_ids[s] = f"node{node_id}"; node_id += 1`;
returns the updated table, the id of `i`, and the updated counter. -/
def assign_id (ids : List (Nat × Nat)) (node_id : Nat) (i : Nat) :
    List (Nat × Nat) × Nat × Nat :=
  match lookup_id ids i with
  | some n => (ids, n, node_id)
  | none => (ids ++ [(i, node_id)], node_id, node_id + 1)

/-- The `for next_state in current.next_states:` loop of `to_dot_file`:
assign an id to each successor, enqueue it, and emit the edge line. -/
def dot_edges (m : RegexFSM) (cur_id : Nat) : List Nat → DotSt → DotSt
  | [], st => st
  | j :: rest, st =>
    let a := assign_id st.ids st.node_id j
    dot_edges m cur_id rest
      ⟨a.1, a.2.2,
       st.lines ++ ["node" ++ toString cur_id ++ " -> node" ++ toString a.2.1 ++
         " [label=\"" ++ get_weight (m.kindAt j) ++ "\"];"],
       st.queue ++ [j]⟩

/-- The `while queue:` loop of `to_dot_file`.  The fuel argument bounds the
number of iterations; the Python loop always terminates because every pop of
an unvisited state is unique and every enqueued state stems from the initial
node or from the edge list of a state processed exactly once, so the fuel
chosen in `to_dot_file` dominates the true iteration count.  The automaton is
threaded through each iteration (mirroring that every iteration reads the
live object graph) so that non-mutation is an actual property of the model. -/
def to_dot_loop (m : RegexFSM) : Nat → DotSt → List Nat → (DotSt × List Nat) × RegexFSM
  | 0, st, visited => ((st, visited), m)
  | fuel + 1, st, visited =>
    match st.queue with
    | [] => ((st, visited), m)
    | current :: rest =>
      if visited.contains current then
        to_dot_loop m fuel ⟨st.ids, st.node_id, st.lines, rest⟩ visited
      else
        let a := assign_id st.ids st.node_id current
        let st1 : DotSt := ⟨a.1, a.2.2,
          st.lines ++ ["node" ++ toString a.2.1 ++ " [label=\"" ++
            get_node_label (m.kindAt current) ++ "\"];"], rest⟩
        let st2 := dot_edges m a.2.1 (m.nextAt current) st1
        to_dot_loop m fuel st2 (visited ++ [current])

/-- `RegexFSM.to_dot_file`, returning the DOT text together with the automaton
as left behind by the traversal. -/
def to_dot_file (m : RegexFSM) : String × RegexFSM :=
  let fuel := 1 + m.size + (m.nexts.map List.length).sum
  let r := to_dot_loop m fuel ⟨[], 0, ["digraph FSM \x7b"], [0]⟩ []
  (String.intercalate "\n" (r.1.1.lines ++ ["\x7d"]), r.2)

/-- `check_string` with the automaton threaded through every step that reads
the object graph, returning it alongside the result; used to state that
matching leaves the automaton unchanged. -/
def run_states_mut (m : RegexFSM) (s : List Char) : List Nat × RegexFSM :=
  s.foldl (fun acc c => (acc.1.flatMap (fun i => check_next acc.2 i c), acc.2)) ([0], m)

def check_string_mut (m : RegexFSM) (message : MatcherInput) :
    Except RegexError Bool × RegexFSM :=
  match message with
  | .nonString => (.error .typeError, m)
  | .str s =>
    let r := run_states_mut m s
    (.ok (r.1.any (fun i => (r.2.nextAt i).any (fun j => is_termination (r.2.kindAt j)))),
     r.2)

/-! Specification-side model of grammatical patterns: a pattern in the
documented grammar is a sequence of units, each an atom with an optional
postfix quantifier.  The definitions below are the vocabulary in which the
behaviour of the compiled automaton is characterised; they are compared
against the source-derived definitions above by the bridge theorems. -/

inductive Quant where
  | star
  | plus
  | qmark
deriving DecidableEq, Repr

inductive Atom where
  | lit (c : Char)
  | dot
  | cls (tok : List Char)
deriving DecidableEq, Repr

/-- One unit of a grammatical pattern. -/
structure RUnit where
  atom : Atom
  quant : Option Quant
deriving DecidableEq, Repr

/-- The token string of an atom. -/
def atom_token : Atom → List Char
  | .lit c => [c]
  | .dot => ['.']
  | .cls tok => tok

def quant_token : Quant → List Char
  | .star => ['*']
  | .plus => ['+']
  | .qmark => ['?']

def unit_tokens (u : RUnit) : List (List Char) :=
  atom_token u.atom :: (u.quant.map quant_token).toList

def units_tokens (us : List RUnit) : List (List Char) :=
  us.flatMap unit_tokens

/-- Wellformedness of an atom: a literal must be a single ASCII character
that is not one of the metacharacters handled earlier in the builder's
`match`, and a class token must have the bracket shape. -/
def wf_atom : Atom → Prop
  | .lit c => c.toNat < 128 ∧ c ≠ '.' ∧ c ≠ '*' ∧ c ≠ '+' ∧ c ≠ '?'
  | .dot => True
  | .cls tok => tok.head? = some '[' ∧ tok.getLast? = some ']'

def wf_unit (u : RUnit) : Prop := wf_atom u.atom

def wf_units (us : List RUnit) : Prop := ∀ u ∈ us, wf_unit u

/-- The state class the builder creates for an atom. -/
def atom_kind : Atom → StateKind
  | .lit c => .asciiState [c]
  | .dot => .dotState
  | .cls tok => .bracketClassState tok (class_symbols tok)

/-- The character-acceptance predicate of an atom, literally the `check_self`
of the state the builder creates for it. -/
def atom_accepts (a : Atom) (c : Char) : Bool :=
  check_self (atom_kind a) c

/-- The language of one unit. -/
def unit_matches (u : RUnit) (s : List Char) : Prop :=
  match u.quant with
  | none => ∃ c, s = [c] ∧ atom_accepts u.atom c
  | some .qmark => s = [] ∨ ∃ c, s = [c] ∧ atom_accepts u.atom c
  | some .star => ∀ c ∈ s, atom_accepts u.atom c
  | some .plus => s ≠ [] ∧ ∀ c ∈ s, atom_accepts u.atom c

/-- The language of a grammatical pattern: a concatenation of unit languages. -/
def units_match : List RUnit → List Char → Prop
  | [], s => s = []
  | u :: us, s => ∃ s1 s2, s = s1 ++ s2 ∧ unit_matches u s1 ∧ units_match us s2

/-- A unit that may match the empty string by its quantifier alone. -/
def optional_quant (q : Option Quant) : Prop :=
  q = some .star ∨ q = some .qmark

def all_optional (us : List RUnit) : Prop :=
  ∀ u ∈ us, optional_quant u.quant

/-- The builder's fringe after the units `us`: the set of states that get an
edge to whatever is built next.  State 0 is `Start`; state `k` (1-based) is
the state of unit `k`. -/
def fringe (us : List RUnit) (x : Nat) : Prop :=
  (x = 0 ∧ all_optional us) ∨
    (1 ≤ x ∧ x ≤ us.length ∧ all_optional (us.drop x))

/-- Edge membership of the automaton arena while units `us` have been built
(no termination state yet): forward edges into the state of unit `k + 1`
from the fringe after the first `k` units, and quantifier self-loops. -/
def edge_rel_part (us : List RUnit) (i j : Nat) : Prop :=
  (∃ k, k < us.length ∧ j = k + 1 ∧ fringe (us.take k) i) ∨
    (i = j ∧ ∃ u, us[i - 1]? = some u ∧ 1 ≤ i ∧ i ≤ us.length ∧
      (u.quant = some .star ∨ u.quant = some .plus))

/-- Edge membership of the finished automaton: as `edge_rel_part`, plus the
edges into the termination state (index `us.length + 1`) from the final
fringe. -/
def edge_rel_built (us : List RUnit) (i j : Nat) : Prop :=
  edge_rel_part us i j ∨ (j = us.length + 1 ∧ fringe us i)

/-- Structure of the automaton built from the token sequence of `us`. -/
def built_fsm_spec (us : List RUnit) (m : RegexFSM) : Prop :=
  m.kinds = .startState :: (us.map (fun u => atom_kind u.atom) ++ [.terminationState]) ∧
  m.nexts.length = us.length + 2 ∧
  (∀ i j, j ∈ m.nextAt i ↔ edge_rel_built us i j)

/-- Why state `j` (of unit `j`, `1 ≤ j ≤ us.length`) is active after
consuming `s`: a final nonempty block of characters all accepted by unit
`j`'s atom was consumed through it (with more than one character only when
the unit self-loops), after a prefix matched by the units before `j`. -/
def act_spec (us : List RUnit) (j : Nat) (s : List Char) : Prop :=
  ∃ u, us[j - 1]? = some u ∧
    ∃ t c r, s = t ++ c :: r ∧
      atom_accepts u.atom c ∧ (∀ d ∈ r, atom_accepts u.atom d) ∧
      (r = [] ∨ u.quant = some .star ∨ u.quant = some .plus) ∧
      units_match (us.take (j - 1)) t

/-- Invariant of the builder state after the units `us` have been processed
(at a unit boundary): the arena holds `Start` followed by one state per unit;
`tmp_next_state` is the state of the last unit (0 if none); the wiring set
the next concrete token would use is exactly the fringe; and edge membership
is `edge_rel_part`. -/
def built_partial (us : List RUnit) (st : BuildState) : Prop :=
  st.fsm.kinds = .startState :: us.map (fun u => atom_kind u.atom) ∧
  st.fsm.nexts.length = us.length + 1 ∧
  st.tmp_next_state = us.length ∧
  (∀ x, x ∈ (if st.necessary then [st.tmp_next_state] else st.prev_states) ↔ fringe us x) ∧
  (∀ i j, j ∈ st.fsm.nextAt i ↔ edge_rel_part us i j)

/-- Basic sanity of a builder state reached from `build_start` by any token
sequence: parallel arena lists, `Start` still first, and all tracked indices
in range. -/
def arena_ok (st : BuildState) : Prop :=
  st.fsm.nexts.length = st.fsm.kinds.length ∧
  st.fsm.kinds.head? = some .startState ∧
  st.tmp_next_state < st.fsm.kinds.length ∧
  (∀ x ∈ st.prev_states, x < st.fsm.kinds.length)

/-- Whether the class-content scan would consume the first character as part
of a range triple (at least three characters, the second a dash). -/
def triple_head : List Char → Prop
  | _ :: b :: _ :: _ => b = '-'
  | _ => False

/-- Deletion of one scan-aligned range triple `a-b` from a bracket-class
content: the lists before and after the deletion parse identically around
the deleted triple.  The guards on the single-character step keep the scan
alignment of the remainder unchanged by the deletion. -/
inductive del_triple (a b : Char) : List Char → List Char → Prop where
  | head (rest : List Char) : del_triple a b (a :: '-' :: b :: rest) rest
  | cons_triple (x y : Char) (rest rest2 : List Char) :
      del_triple a b rest rest2 →
      del_triple a b (x :: '-' :: y :: rest) (x :: '-' :: y :: rest2)
  | cons_single (x : Char) (rest rest2 : List Char) :
      del_triple a b rest rest2 →
      ¬ triple_head (x :: rest) → ¬ triple_head (x :: rest2) →
      del_triple a b (x :: rest) (x :: rest2)

/-! Arena access lemmas. -/

theorem add_edges_nil (m : RegexFSM) (d : Nat) : add_edges m [] d = m := rfl

theorem add_edges_cons (m : RegexFSM) (s : Nat) (rest : List Nat) (d : Nat) :
    add_edges m (s :: rest) d = add_edges (add_edge m s d) rest d := rfl

theorem kinds_add_edge (m : RegexFSM) (s d : Nat) : (add_edge m s d).kinds = m.kinds := rfl

theorem nexts_length_add_edge (m : RegexFSM) (s d : Nat) :
    (add_edge m s d).nexts.length = m.nexts.length := by
  simp [add_edge]

theorem kinds_add_edges (srcs : List Nat) (m : RegexFSM) (d : Nat) :
    (add_edges m srcs d).kinds = m.kinds := by
  induction srcs generalizing m with
  | nil => rfl
  | cons s rest ih => rw [add_edges_cons, ih, kinds_add_edge]

theorem nexts_length_add_edges (srcs : List Nat) (m : RegexFSM) (d : Nat) :
    (add_edges m srcs d).nexts.length = m.nexts.length := by
  induction srcs generalizing m with
  | nil => rfl
  | cons s rest ih => rw [add_edges_cons, ih, nexts_length_add_edge]

theorem kindAt_add_edge (m : RegexFSM) (s d i : Nat) :
    (add_edge m s d).kindAt i = m.kindAt i := rfl

theorem kindAt_add_edges (srcs : List Nat) (m : RegexFSM) (d i : Nat) :
    (add_edges m srcs d).kindAt i = m.kindAt i := by
  unfold RegexFSM.kindAt
  rw [kinds_add_edges]

theorem nextAt_add_edge (m : RegexFSM) (s d : Nat) (h : s < m.nexts.length) (i : Nat) :
    (add_edge m s d).nextAt i = if i = s then m.nextAt s ++ [d] else m.nextAt i := by
  unfold add_edge RegexFSM.nextAt
  simp only [List.getD_eq_getElem?_getD, List.getElem?_set]
  by_cases hi : s = i
  · subst hi
    simp [h, List.getD_eq_getElem?_getD]
  · have hi2 : ¬ i = s := fun hh => hi hh.symm
    simp [hi, hi2]

theorem nextAt_add_edge_out (m : RegexFSM) (s d : Nat) (h : ¬ s < m.nexts.length) (i : Nat) :
    (add_edge m s d).nextAt i = m.nextAt i := by
  unfold add_edge RegexFSM.nextAt
  simp only [List.getD_eq_getElem?_getD, List.getElem?_set]
  by_cases hi : s = i
  · subst hi
    simp only [if_pos rfl, if_neg h]
    rw [List.getElem?_eq_none (by omega)]
    simp
  · simp [hi]

theorem mem_nextAt_add_edges (srcs : List Nat) (m : RegexFSM) (d : Nat)
    (h : ∀ x ∈ srcs, x < m.nexts.length) (i j : Nat) :
    j ∈ (add_edges m srcs d).nextAt i ↔ j ∈ m.nextAt i ∨ (i ∈ srcs ∧ j = d) := by
  induction srcs generalizing m with
  | nil => simp [add_edges_nil]
  | cons s rest ih =>
    rw [add_edges_cons]
    have hs : s < m.nexts.length := h s (by simp)
    have hrest : ∀ x ∈ rest, x < (add_edge m s d).nexts.length := by
      rw [nexts_length_add_edge]
      exact fun x hx => h x (by simp [hx])
    rw [ih _ hrest, nextAt_add_edge m s d hs i]
    by_cases hi : i = s
    · subst hi
      simp [List.mem_append]
      tauto
    · simp only [if_neg hi, List.mem_cons]
      tauto

theorem kinds_add_state (m : RegexFSM) (k : StateKind) :
    (add_state m k).1.kinds = m.kinds ++ [k] := rfl

theorem nexts_length_add_state (m : RegexFSM) (k : StateKind) :
    (add_state m k).1.nexts.length = m.nexts.length + 1 := by
  simp [add_state]

theorem nextAt_add_state (m : RegexFSM) (k : StateKind) (i : Nat) :
    (add_state m k).1.nextAt i = m.nextAt i := by
  unfold add_state RegexFSM.nextAt
  simp only [List.getD_eq_getElem?_getD, List.getElem?_append]
  by_cases h : i < m.nexts.length
  · simp [h]
  · simp only [h, if_false]
    have e1 : m.nexts[i]? = none := List.getElem?_eq_none (by omega)
    rw [e1]
    rcases Nat.eq_zero_or_pos (i - m.nexts.length) with h2 | h2
    · rw [h2]; simp
    · have e2 : ([[]] : List (List Nat))[i - m.nexts.length]? = none :=
        List.getElem?_eq_none (by simp; omega)
      rw [e2]

theorem kindAt_add_state (m : RegexFSM) (k : StateKind) (i : Nat) :
    (add_state m k).1.kindAt i =
      if i = m.kinds.length then k else m.kindAt i := by
  unfold add_state RegexFSM.kindAt
  simp only [List.getD_eq_getElem?_getD, List.getElem?_append]
  by_cases h : i < m.kinds.length
  · simp [h, Nat.ne_of_lt h]
  · by_cases h2 : i = m.kinds.length
    · subst h2; simp
    · simp only [h, if_false, h2]
      have e1 : [k][i - m.kinds.length]? = none := List.getElem?_eq_none (by simp; omega)
      have e2 : m.kinds[i]? = none := List.getElem?_eq_none (by omega)
      rw [e1, e2]

/-! Builder step lemmas: each token case of `init_next_state` in closed form. -/

theorem get_symbols_ok (t : List Char)
    (h : t.head? = some '[' ∧ t.getLast? = some ']') :
    get_symbols_from_class t = .ok (class_symbols t) := by
  unfold get_symbols_from_class
  rw [if_pos h]

theorem init_atom (st : BuildState) (a : Atom) (h : wf_atom a) :
    init_next_state st (atom_token a) =
      .ok ⟨add_edges (add_state st.fsm (atom_kind a)).1
             (if st.necessary then [st.tmp_next_state] else st.prev_states)
             st.fsm.kinds.length,
           (if st.necessary then [st.tmp_next_state] else st.prev_states),
           st.fsm.kinds.length, true⟩ := by
  cases a with
  | lit c =>
    obtain ⟨hascii, hdot, hstar, hplus, hq⟩ := h
    unfold init_next_state atom_token
    rw [if_neg (by rintro ⟨e1, e2⟩; simp at e1 e2; subst e1; exact absurd e2 (by decide)),
      if_neg (by simp [termination_token]),
      if_neg (by simp; exact hdot),
      if_neg (by simp; exact hstar),
      if_neg (by simp; exact hplus),
      if_neg (by simp; exact hq),
      if_pos (by simp; exact hascii)]
    rfl
  | dot =>
    unfold init_next_state atom_token
    rw [if_neg (by decide), if_neg (by decide), if_pos rfl]
    rfl
  | cls tok =>
    have h2 : tok.head? = some '[' ∧ tok.getLast? = some ']' := h
    show init_next_state st tok = _
    unfold init_next_state
    rw [if_pos h2, get_symbols_ok tok h2]
    rfl

theorem init_star (st : BuildState) :
    init_next_state st ['*'] =
      .ok ⟨add_edge st.fsm st.tmp_next_state st.tmp_next_state,
           st.prev_states ++ [st.tmp_next_state], st.tmp_next_state, false⟩ := by
  unfold init_next_state
  rw [if_neg (by decide), if_neg (by decide), if_neg (by decide), if_pos rfl]

theorem init_plus (st : BuildState) :
    init_next_state st ['+'] =
      .ok ⟨add_edge st.fsm st.tmp_next_state st.tmp_next_state,
           [st.tmp_next_state], st.tmp_next_state, false⟩ := by
  unfold init_next_state
  rw [if_neg (by decide), if_neg (by decide), if_neg (by decide), if_neg (by decide),
    if_pos rfl]

theorem init_qmark (st : BuildState) :
    init_next_state st ['?'] =
      .ok ⟨st.fsm, st.prev_states ++ [st.tmp_next_state], st.tmp_next_state, false⟩ := by
  unfold init_next_state
  rw [if_neg (by decide), if_neg (by decide), if_neg (by decide), if_neg (by decide),
    if_neg (by decide), if_pos rfl]

theorem init_term (st : BuildState) :
    init_next_state st termination_token =
      .ok ⟨add_edges (add_state st.fsm .terminationState).1
             (if st.necessary then [st.tmp_next_state] else st.prev_states)
             st.fsm.kinds.length,
           (if st.necessary then [st.tmp_next_state] else st.prev_states),
           st.fsm.kinds.length, true⟩ := by
  unfold init_next_state
  rw [if_neg (by decide), if_pos rfl]
  rfl

theorem build_loop_append (a b : List (List Char)) (st : BuildState) :
    build_loop st (a ++ b) =
      match build_loop st a with
      | .error e => .error e
      | .ok st2 => build_loop st2 b := by
  induction a generalizing st with
  | nil => rfl
  | cons t ts ih =>
    simp only [List.cons_append, build_loop]
    cases hstep : init_next_state st t with
    | error e => rfl
    | ok st2 => exact ih st2

/-! Fringe and edge-relation lemmas. -/

theorem all_optional_nil : all_optional [] := by
  intro u h
  cases h

theorem all_optional_snoc (us : List RUnit) (u : RUnit) :
    all_optional (us ++ [u]) ↔ all_optional us ∧ optional_quant u.quant := by
  unfold all_optional
  rw [List.forall_mem_append]
  simp

theorem fringe_nil (x : Nat) : fringe [] x ↔ x = 0 := by
  unfold fringe
  simp [all_optional_nil]

theorem fringe_bound (us : List RUnit) (x : Nat) (h : fringe us x) : x ≤ us.length := by
  rcases h with ⟨rfl, _⟩ | ⟨_, h2, _⟩
  · omega
  · exact h2

theorem fringe_last (us : List RUnit) (h : 0 < us.length) : fringe us us.length := by
  right
  refine ⟨h, le_refl _, ?_⟩
  rw [List.drop_length]
  exact all_optional_nil

theorem fringe_snoc (us : List RUnit) (u : RUnit) (x : Nat) :
    fringe (us ++ [u]) x ↔
      x = us.length + 1 ∨ (optional_quant u.quant ∧ fringe us x) := by
  constructor
  · rintro (⟨rfl, hall⟩ | ⟨h1, h2, hall⟩)
    · have := (all_optional_snoc us u).mp hall
      exact Or.inr ⟨this.2, Or.inl ⟨rfl, this.1⟩⟩
    · simp at h2
      rcases Nat.lt_or_ge x (us.length + 1) with hx | hx
    -- x within the old units
      · have hx2 : x ≤ us.length := by omega
        rw [List.drop_append_of_le_length hx2] at hall
        have h3 := (all_optional_snoc (us.drop x) u).mp hall
        exact Or.inr ⟨h3.2, Or.inr ⟨h1, hx2, h3.1⟩⟩
      · left; omega
  · rintro (rfl | ⟨hopt, hf⟩)
    · right
      refine ⟨by omega, by simp, ?_⟩
      have hd : (us ++ [u]).drop (us.length + 1) = [] :=
        List.drop_eq_nil_of_le (by simp)
      rw [hd]
      exact all_optional_nil
    · rcases hf with ⟨rfl, hall⟩ | ⟨h1, h2, hall⟩
      · exact Or.inl ⟨rfl, (all_optional_snoc us u).mpr ⟨hall, hopt⟩⟩
      · refine Or.inr ⟨h1, by simp; omega, ?_⟩
        rw [List.drop_append_of_le_length h2]
        exact (all_optional_snoc (us.drop x) u).mpr ⟨hall, hopt⟩

theorem edge_rel_part_nil (i j : Nat) : ¬ edge_rel_part [] i j := by
  rintro (⟨k, hk, _⟩ | ⟨_, u, _, h1, h2, _⟩)
  · simp at hk
  · simp at h2
    omega

theorem edge_rel_part_snoc (us : List RUnit) (u : RUnit) (i j : Nat) :
    edge_rel_part (us ++ [u]) i j ↔
      edge_rel_part us i j ∨ (j = us.length + 1 ∧ fringe us i) ∨
        (i = j ∧ i = us.length + 1 ∧
          (u.quant = some .star ∨ u.quant = some .plus)) := by
  constructor
  · rintro (⟨k, hk, rfl, hf⟩ | ⟨rfl, u2, hu2, h1, h2, hq⟩)
    · simp at hk
      rcases Nat.lt_or_ge k us.length with hk2 | hk2
      · rw [List.take_append_of_le_length (by omega)] at hf
        exact Or.inl (Or.inl ⟨k, hk2, rfl, hf⟩)
      · have hkeq : k = us.length := by omega
        subst hkeq
        have ht : (us ++ [u]).take us.length = us := by simp
        rw [ht] at hf
        exact Or.inr (Or.inl ⟨rfl, hf⟩)
    · simp at h2
      rcases Nat.lt_or_ge (i - 1) us.length with hi | hi
      · rw [List.getElem?_append_left hi] at hu2
        exact Or.inl (Or.inr ⟨rfl, u2, hu2, h1, by omega, hq⟩)
      · have hieq : i = us.length + 1 := by omega
        subst hieq
        have : (us ++ [u])[us.length + 1 - 1]? = some u := by simp
        rw [this] at hu2
        cases hu2
        exact Or.inr (Or.inr ⟨rfl, rfl, hq⟩)
  · rintro ((⟨k, hk, rfl, hf⟩ | ⟨rfl, u2, hu2, h1, h2, hq⟩) | ⟨rfl, hf⟩ | ⟨rfl, rfl, hq⟩)
    · refine Or.inl ⟨k, by simp; omega, rfl, ?_⟩
      rw [List.take_append_of_le_length (by omega)]
      exact hf
    · refine Or.inr ⟨rfl, u2, ?_, h1, by simp; omega, hq⟩
      rw [List.getElem?_append_left (by omega)]
      exact hu2
    · refine Or.inl ⟨us.length, by simp, rfl, ?_⟩
      have ht : (us ++ [u]).take us.length = us := by simp
      rw [ht]
      exact hf
    · refine Or.inr ⟨rfl, u, ?_, by omega, by simp, hq⟩
      simp

theorem build_loop_cons_ok (st st2 : BuildState) (t : List Char) (ts : List (List Char))
    (h : init_next_state st t = .ok st2) :
    build_loop st (t :: ts) = build_loop st2 ts := by
  simp only [build_loop, h]

theorem build_unit_step (us : List RUnit) (u : RUnit) (st : BuildState)
    (hwf : wf_unit u) (hinv : built_partial us st) :
    ∃ st2, build_loop st (unit_tokens u) = .ok st2 ∧ built_partial (us ++ [u]) st2 := by
  obtain ⟨hkinds, hlen, htmp, hfr, hedge⟩ := hinv
  have hklen : st.fsm.kinds.length = us.length + 1 := by
    rw [hkinds]; simp
  have hatom := init_atom st u.atom hwf
  set W : List Nat := if st.necessary then [st.tmp_next_state] else st.prev_states
    with hWdef
  set fsmA : RegexFSM :=
    add_edges (add_state st.fsm (atom_kind u.atom)).1 W st.fsm.kinds.length with hAdef
  have hWlt : ∀ x ∈ W, x < (add_state st.fsm (atom_kind u.atom)).1.nexts.length := by
    intro x hx
    have := fringe_bound us x ((hfr x).mp hx)
    rw [nexts_length_add_state, hlen]
    omega
  have hAkinds : fsmA.kinds = .startState :: (us ++ [u]).map (fun v => atom_kind v.atom) := by
    rw [hAdef, kinds_add_edges, kinds_add_state, hkinds]
    simp
  have hAlen : fsmA.nexts.length = us.length + 2 := by
    rw [hAdef, nexts_length_add_edges, nexts_length_add_state, hlen]
  have hAnext : ∀ i j, j ∈ fsmA.nextAt i ↔
      edge_rel_part us i j ∨ (fringe us i ∧ j = us.length + 1) := by
    intro i j
    rw [hAdef]
    rw [mem_nextAt_add_edges W _ _ hWlt, nextAt_add_state, hedge, hklen]
    constructor
    · rintro (h | ⟨h1, h2⟩)
      · exact Or.inl h
      · exact Or.inr ⟨(hfr i).mp h1, h2⟩
    · rintro (h | ⟨h1, h2⟩)
      · exact Or.inl h
      · exact Or.inr ⟨(hfr i).mpr h1, h2⟩
  have hsnoclen : (us ++ [u]).length = us.length + 1 := by simp
  rcases hq : u.quant with _ | q
  · -- no quantifier
    have htok : unit_tokens u = [atom_token u.atom] := by
      rw [unit_tokens, hq]
      rfl
    refine ⟨⟨fsmA, W, st.fsm.kinds.length, true⟩, ?_, ?_, ?_, ?_, ?_, ?_⟩
    · rw [htok, build_loop_cons_ok _ _ _ _ hatom]
      rfl
    · exact hAkinds
    · rw [hAlen, hsnoclen]
    · rw [hsnoclen, hklen]
    · intro x
      simp only [if_pos rfl, List.mem_singleton, hklen, fringe_snoc, hq]
      unfold optional_quant
      simp
    · intro i j
      rw [hAnext, edge_rel_part_snoc]
      simp only [hq]
      constructor
      · rintro (h | ⟨h1, h2⟩)
        · exact Or.inl h
        · exact Or.inr (Or.inl ⟨h2, h1⟩)
      · rintro (h | ⟨h1, h2⟩ | ⟨_, _, hbad | hbad⟩)
        · exact Or.inl h
        · exact Or.inr ⟨h2, h1⟩
        · cases hbad
        · cases hbad
  · -- with quantifier: the atom step, then the quantifier step
    cases q with
    | star =>
      have htok : unit_tokens u = [atom_token u.atom, ['*']] := by
        rw [unit_tokens, hq]
        rfl
      refine ⟨⟨add_edge fsmA st.fsm.kinds.length st.fsm.kinds.length,
        W ++ [st.fsm.kinds.length], st.fsm.kinds.length, false⟩, ?_, ?_, ?_, ?_, ?_, ?_⟩
      · rw [htok, build_loop_cons_ok _ _ _ _ hatom,
          build_loop_cons_ok _ _ _ _ (init_star _)]
        rfl
      · rw [kinds_add_edge]; exact hAkinds
      · rw [nexts_length_add_edge, hAlen, hsnoclen]
      · rw [hsnoclen, hklen]
      · intro x
        simp only [if_neg (by decide : ¬ false = true), List.mem_append,
          List.mem_singleton, hklen, fringe_snoc, hq]
        rw [hfr x]
        unfold optional_quant
        simp
        tauto
      · intro i j
        rw [nextAt_add_edge fsmA st.fsm.kinds.length st.fsm.kinds.length
          (by rw [hklen, hAlen]; omega) i, edge_rel_part_snoc]
        simp only [hq, hklen]
        by_cases hi : i = us.length + 1
        · subst hi
          rw [if_pos rfl]
          simp only [List.mem_append, List.mem_singleton, hAnext]
          constructor
          · rintro ((h | ⟨h1, h2⟩) | h)
            · exact Or.inl h
            · exact Or.inr (Or.inl ⟨h2, h1⟩)
            · exact Or.inr (Or.inr ⟨h.symm, by simp, by simp⟩)
          · rintro (h | ⟨h1, h2⟩ | ⟨h1, _, _⟩)
            · exact Or.inl (Or.inl h)
            · exact Or.inl (Or.inr ⟨h2, h1⟩)
            · exact Or.inr h1.symm
        · rw [if_neg hi]
          rw [hAnext]
          constructor
          · rintro (h | ⟨h1, h2⟩)
            · exact Or.inl h
            · exact Or.inr (Or.inl ⟨h2, h1⟩)
          · rintro (h | ⟨h1, h2⟩ | ⟨_, h2, _⟩)
            · exact Or.inl h
            · exact Or.inr ⟨h2, h1⟩
            · exact absurd h2 hi
    | plus =>
      have htok : unit_tokens u = [atom_token u.atom, ['+']] := by
        rw [unit_tokens, hq]
        rfl
      refine ⟨⟨add_edge fsmA st.fsm.kinds.length st.fsm.kinds.length,
        [st.fsm.kinds.length], st.fsm.kinds.length, false⟩, ?_, ?_, ?_, ?_, ?_, ?_⟩
      · rw [htok, build_loop_cons_ok _ _ _ _ hatom,
          build_loop_cons_ok _ _ _ _ (init_plus _)]
        rfl
      · rw [kinds_add_edge]; exact hAkinds
      · rw [nexts_length_add_edge, hAlen, hsnoclen]
      · rw [hsnoclen, hklen]
      · intro x
        simp only [if_neg (by decide : ¬ false = true), List.mem_singleton, hklen,
          fringe_snoc, hq]
        unfold optional_quant
        simp
      · intro i j
        rw [nextAt_add_edge fsmA st.fsm.kinds.length st.fsm.kinds.length
          (by rw [hklen, hAlen]; omega) i, edge_rel_part_snoc]
        simp only [hq, hklen]
        by_cases hi : i = us.length + 1
        · subst hi
          rw [if_pos rfl]
          simp only [List.mem_append, List.mem_singleton, hAnext]
          constructor
          · rintro ((h | ⟨h1, h2⟩) | h)
            · exact Or.inl h
            · exact Or.inr (Or.inl ⟨h2, h1⟩)
            · exact Or.inr (Or.inr ⟨h.symm, by simp, by simp⟩)
          · rintro (h | ⟨h1, h2⟩ | ⟨h1, _, _⟩)
            · exact Or.inl (Or.inl h)
            · exact Or.inl (Or.inr ⟨h2, h1⟩)
            · exact Or.inr h1.symm
        · rw [if_neg hi]
          rw [hAnext]
          constructor
          · rintro (h | ⟨h1, h2⟩)
            · exact Or.inl h
            · exact Or.inr (Or.inl ⟨h2, h1⟩)
          · rintro (h | ⟨h1, h2⟩ | ⟨_, h2, _⟩)
            · exact Or.inl h
            · exact Or.inr ⟨h2, h1⟩
            · exact absurd h2 hi
    | qmark =>
      have htok : unit_tokens u = [atom_token u.atom, ['?']] := by
        rw [unit_tokens, hq]
        rfl
      refine ⟨⟨fsmA, W ++ [st.fsm.kinds.length], st.fsm.kinds.length, false⟩,
        ?_, ?_, ?_, ?_, ?_, ?_⟩
      · rw [htok, build_loop_cons_ok _ _ _ _ hatom,
          build_loop_cons_ok _ _ _ _ (init_qmark _)]
        rfl
      · exact hAkinds
      · rw [hAlen, hsnoclen]
      · rw [hsnoclen, hklen]
      · intro x
        simp only [if_neg (by decide : ¬ false = true), List.mem_append,
          List.mem_singleton, hklen, fringe_snoc, hq]
        rw [hfr x]
        unfold optional_quant
        simp
        tauto
      · intro i j
        rw [hAnext, edge_rel_part_snoc]
        simp only [hq]
        constructor
        · rintro (h | ⟨h1, h2⟩)
          · exact Or.inl h
          · exact Or.inr (Or.inl ⟨h2, h1⟩)
        · rintro (h | ⟨h1, h2⟩ | ⟨_, _, hbad | hbad⟩)
          · exact Or.inl h
          · exact Or.inr ⟨h2, h1⟩
          · cases hbad
          · cases hbad

theorem built_partial_nil : built_partial [] build_start := by
  refine ⟨rfl, rfl, rfl, ?_, ?_⟩
  · intro x
    simp [build_start, fringe_nil]
  · intro i j
    constructor
    · intro h
      exfalso
      unfold build_start RegexFSM.nextAt at h
      rcases i with _ | i2 <;> simp at h
    · intro h
      exact absurd h (edge_rel_part_nil i j)

theorem build_units_loop (us : List RUnit) (hwf : wf_units us) :
    ∃ st, build_loop build_start (units_tokens us) = .ok st ∧ built_partial us st := by
  induction us using List.reverseRecOn with
  | nil => exact ⟨build_start, rfl, built_partial_nil⟩
  | append_singleton us u ih =>
    have hwf1 : wf_units us := fun v hv => hwf v (by simp [hv])
    have hwf2 : wf_unit u := hwf u (by simp)
    obtain ⟨st1, hrun, hinv⟩ := ih hwf1
    obtain ⟨st2, hrun2, hinv2⟩ := build_unit_step us u st1 hwf2 hinv
    refine ⟨st2, ?_, hinv2⟩
    have hsplit : units_tokens (us ++ [u]) = units_tokens us ++ unit_tokens u := by
      unfold units_tokens
      simp
    rw [hsplit, build_loop_append, hrun]
    exact hrun2

theorem build_fsm_units (us : List RUnit) (hwf : wf_units us) :
    ∃ m, build_fsm (units_tokens us) = .ok m ∧ built_fsm_spec us m := by
  obtain ⟨st, hrun, hkinds, hlen, htmp, hfr, hedge⟩ := build_units_loop us hwf
  have hklen : st.fsm.kinds.length = us.length + 1 := by
    rw [hkinds]; simp
  have hterm := init_term st
  set W : List Nat := if st.necessary then [st.tmp_next_state] else st.prev_states
    with hWdef
  set fsmT : RegexFSM :=
    add_edges (add_state st.fsm .terminationState).1 W st.fsm.kinds.length with hT
  have hWlt : ∀ x ∈ W, x < (add_state st.fsm .terminationState).1.nexts.length := by
    intro x hx
    have := fringe_bound us x ((hfr x).mp hx)
    rw [nexts_length_add_state, hlen]
    omega
  refine ⟨fsmT, ?_, ?_, ?_, ?_⟩
  · unfold build_fsm
    rw [hrun]
    show (match init_next_state st termination_token with
      | .error e => .error e
      | .ok st2 => .ok st2.fsm) = Except.ok fsmT
    rw [hterm]
  · rw [hT, kinds_add_edges, kinds_add_state, hkinds]
    simp
  · rw [hT, nexts_length_add_edges, nexts_length_add_state, hlen]
  · intro i j
    rw [hT, mem_nextAt_add_edges W _ _ hWlt, nextAt_add_state, hedge, hklen]
    unfold edge_rel_built
    constructor
    · rintro (h | ⟨h1, h2⟩)
      · exact Or.inl h
      · exact Or.inr ⟨h2, (hfr i).mp h1⟩
    · rintro (h | ⟨h1, h2⟩)
      · exact Or.inl h
      · exact Or.inr ⟨(hfr i).mpr h2, h1⟩

theorem regex_init_units (p : List Char) (us : List RUnit) (hwf : wf_units us)
    (htok : get_tokens_from_pattern p = .ok (units_tokens us)) :
    ∃ m, regex_fsm_init p = .ok m ∧ built_fsm_spec us m := by
  obtain ⟨m, hb, hs⟩ := build_fsm_units us hwf
  refine ⟨m, ?_, hs⟩
  unfold regex_fsm_init
  rw [htok]
  exact hb

/-! Lemmas about the unit-language semantics. -/

theorem unit_matches_nil (u : RUnit) :
    unit_matches u [] ↔ optional_quant u.quant := by
  rcases hq : u.quant with _ | q
  · simp [unit_matches, hq, optional_quant]
  · cases q <;> simp [unit_matches, hq, optional_quant]

theorem unit_matches_cons_facts (u : RUnit) (d : Char) (r : List Char)
    (h : unit_matches u (d :: r)) :
    atom_accepts u.atom d ∧ (∀ e ∈ r, atom_accepts u.atom e) ∧
      (r = [] ∨ u.quant = some .star ∨ u.quant = some .plus) := by
  rcases hq : u.quant with _ | q
  · rw [unit_matches, hq] at h
    obtain ⟨c, hc, hacc⟩ := h
    cases hc
    exact ⟨hacc, by simp, Or.inl rfl⟩
  · cases q
    · rw [unit_matches, hq] at h
      exact ⟨h d (by simp), fun e he => h e (by simp [he]), Or.inr (Or.inl rfl)⟩
    · rw [unit_matches, hq] at h
      exact ⟨h.2 d (by simp), fun e he => h.2 e (by simp [he]), Or.inr (Or.inr rfl)⟩
    · rw [unit_matches, hq] at h
      rcases h with h | ⟨c, hc, hacc⟩
      · cases h
      · cases hc
        exact ⟨hacc, by simp, Or.inl rfl⟩

theorem unit_matches_block (u : RUnit) (d : Char) (r : List Char)
    (hd : atom_accepts u.atom d) (hr : ∀ e ∈ r, atom_accepts u.atom e)
    (hloop : r = [] ∨ u.quant = some .star ∨ u.quant = some .plus) :
    unit_matches u (d :: r) := by
  rcases hq : u.quant with _ | q
  · rw [unit_matches, hq]
    rcases hloop with rfl | hbad | hbad
    · exact ⟨d, rfl, hd⟩
    · rw [hq] at hbad; cases hbad
    · rw [hq] at hbad; cases hbad
  · cases q
    · rw [unit_matches, hq]
      intro e he
      rcases List.mem_cons.mp he with rfl | he2
      · exact hd
      · exact hr e he2
    · rw [unit_matches, hq]
      refine ⟨by simp, ?_⟩
      intro e he
      rcases List.mem_cons.mp he with rfl | he2
      · exact hd
      · exact hr e he2
    · rw [unit_matches, hq]
      rcases hloop with rfl | hbad | hbad
      · exact Or.inr ⟨d, rfl, hd⟩
      · rw [hq] at hbad; cases hbad
      · rw [hq] at hbad; cases hbad

theorem act_spec_nil (us : List RUnit) (j : Nat) : ¬ act_spec us j [] := by
  rintro ⟨u, hu, t, c, r, heq, _⟩
  have := congrArg List.length heq
  simp at this
  omega

theorem units_match_append (A B : List RUnit) (s : List Char) :
    units_match (A ++ B) s ↔
      ∃ s1 s2, s = s1 ++ s2 ∧ units_match A s1 ∧ units_match B s2 := by
  induction A generalizing s with
  | nil =>
    simp only [List.nil_append, units_match]
    constructor
    · intro h
      exact ⟨[], s, rfl, rfl, h⟩
    · rintro ⟨s1, s2, rfl, rfl, h⟩
      simpa using h
  | cons u A ih =>
    simp only [List.cons_append, units_match]
    constructor
    · rintro ⟨s1, s2, rfl, hu, hrest⟩
      obtain ⟨t1, t2, rfl, hA, hB⟩ := (ih s2).mp hrest
      exact ⟨s1 ++ t1, t2, by simp, ⟨s1, t1, rfl, hu, hA⟩, hB⟩
    · rintro ⟨s1, s2, rfl, ⟨t1, t2, rfl, hu, hA⟩, hB⟩
      exact ⟨t1, t2 ++ s2, by simp, hu, (ih _).mpr ⟨t2, s2, rfl, hA, hB⟩⟩

theorem units_match_singleton (u : RUnit) (s : List Char) :
    units_match [u] s ↔ unit_matches u s := by
  simp only [units_match]
  constructor
  · rintro ⟨s1, s2, rfl, hu, h2⟩
    subst h2
    simpa using hu
  · intro h
    exact ⟨s, [], by simp, h, rfl⟩

theorem units_match_nil_str (V : List RUnit) : units_match V [] ↔ all_optional V := by
  induction V with
  | nil =>
    simp [units_match, all_optional_nil]
  | cons u V ih =>
    simp only [units_match]
    constructor
    · rintro ⟨s1, s2, heq, hu, hrest⟩
      obtain ⟨rfl, rfl⟩ := List.append_eq_nil.mp heq.symm
      intro v hv
      rcases List.mem_cons.mp hv with rfl | hv2
      · exact (unit_matches_nil v).mp hu
      · exact ih.mp hrest v hv2
    · intro hall
      refine ⟨[], [], rfl, (unit_matches_nil u).mpr (hall u (by simp)), ?_⟩
      exact ih.mpr (fun v hv => hall v (by simp [hv]))

theorem act_spec_extend (V W : List RUnit) (j : Nat) (h1 : 1 ≤ j) (h2 : j ≤ V.length)
    (s : List Char) : act_spec (V ++ W) j s ↔ act_spec V j s := by
  unfold act_spec
  rw [List.getElem?_append_left (by omega), List.take_append_of_le_length (by omega)]

theorem act_spec_take (us : List RUnit) (k j : Nat) (h1 : 1 ≤ j) (h2 : j ≤ k)
    (h3 : k ≤ us.length) (s : List Char) :
    act_spec (us.take k) j s ↔ act_spec us j s := by
  conv_rhs => rw [← List.take_append_drop k us]
  rw [act_spec_extend (us.take k) (us.drop k) j h1 (by simp; omega) s]

theorem snoc_eq_append_cons (s : List Char) (c : Char) (t : List Char) (d : Char)
    (r : List Char) (h : s ++ [c] = t ++ d :: r) :
    (r = [] ∧ t = s ∧ d = c) ∨ ∃ r2, r = r2 ++ [c] ∧ s = t ++ d :: r2 := by
  rcases r.eq_nil_or_concat with rfl | ⟨r2, a, rfl⟩
  · left
    have hl : s.length = t.length := by
      have := congrArg List.length h
      simp at this
      omega
    obtain ⟨h1, h2⟩ := List.append_inj h hl
    simp at h2
    exact ⟨rfl, h1.symm, h2.symm⟩
  · right
    rw [List.concat_eq_append] at h
    have h2 : s ++ [c] = (t ++ d :: r2) ++ [a] := by
      rw [h]
      simp
    have hl : s.length = (t ++ d :: r2).length := by
      have h3 := congrArg List.length h2
      simp only [List.length_append, List.length_cons, List.length_singleton] at h3 ⊢
      omega
    obtain ⟨e1, e2⟩ := List.append_inj h2 hl
    simp at e2
    subst e2
    exact ⟨r2, by simp, e1⟩

theorem act_spec_snoc (us : List RUnit) (j : Nat) (u : RUnit) (hu : us[j - 1]? = some u)
    (s : List Char) (c : Char) :
    act_spec us j (s ++ [c]) ↔
      atom_accepts u.atom c ∧
        (units_match (us.take (j - 1)) s ∨
          ((u.quant = some .star ∨ u.quant = some .plus) ∧ act_spec us j s)) := by
  constructor
  · rintro ⟨u2, hu2, t, d, r, heq, hd, hr, hloop, hpre⟩
    rw [hu] at hu2
    obtain rfl : u = u2 := Option.some.inj hu2
    rcases snoc_eq_append_cons s c t d r heq with ⟨rfl, rfl, rfl⟩ | ⟨r2, rfl, rfl⟩
    · exact ⟨hd, Or.inl hpre⟩
    · have hc : atom_accepts u.atom c := hr c (by simp)
      have hloop2 : u.quant = some .star ∨ u.quant = some .plus := by
        rcases hloop with hbad | h
        · exact absurd hbad (by simp)
        · exact h
      refine ⟨hc, Or.inr ⟨hloop2, u, hu, t, d, r2, rfl, hd, ?_, Or.inr hloop2, hpre⟩⟩
      intro e he
      exact hr e (by simp [he])
  · rintro ⟨hc, hrest | ⟨hloop, u2, hu2, t, d, r, heq, hd, hr, _, hpre⟩⟩
    · exact ⟨u, hu, s, c, [], rfl, hc, by simp, Or.inl rfl, hrest⟩
    · rw [hu] at hu2
      obtain rfl : u = u2 := Option.some.inj hu2
      subst heq
      refine ⟨u, hu, t, d, r ++ [c], by simp, hd, ?_, Or.inr hloop, hpre⟩
      intro e he
      rcases List.mem_append.mp he with he2 | he2
      · exact hr e he2
      · simp at he2
        subst he2
        exact hc

theorem units_match_last_block_fwd (V : List RUnit) :
    ∀ s : List Char, units_match V s →
      (s = [] ∧ all_optional V) ∨
        ∃ j, 1 ≤ j ∧ j ≤ V.length ∧ all_optional (V.drop j) ∧ act_spec V j s := by
  induction V using List.reverseRecOn with
  | nil =>
    intro s h
    rw [units_match] at h
    exact Or.inl ⟨h, all_optional_nil⟩
  | append_singleton V u ih =>
    intro s h
    obtain ⟨s1, s2, rfl, hV, hu⟩ := (units_match_append V [u] _).mp h
    replace hu := (units_match_singleton u s2).mp hu
    cases s2 with
    | nil =>
      have hopt : optional_quant u.quant := (unit_matches_nil u).mp hu
      rw [List.append_nil]
      rcases ih s1 hV with ⟨rfl, hall⟩ | ⟨j, h1, h2, hdrop, hact⟩
      · exact Or.inl ⟨rfl, (all_optional_snoc V u).mpr ⟨hall, hopt⟩⟩
      · refine Or.inr ⟨j, h1, by simp; omega, ?_, ?_⟩
        · rw [List.drop_append_of_le_length h2]
          exact (all_optional_snoc _ u).mpr ⟨hdrop, hopt⟩
        · exact (act_spec_extend V [u] j h1 h2 s1).mpr hact
    | cons d r =>
      obtain ⟨hd, hr, hloop⟩ := unit_matches_cons_facts u d r hu
      refine Or.inr ⟨V.length + 1, by omega, by simp, ?_, ?_⟩
      · have hnil : (V ++ [u]).drop (V.length + 1) = [] :=
          List.drop_eq_nil_of_le (by simp)
        rw [hnil]
        exact all_optional_nil
      · refine ⟨u, by simp, s1, d, r, rfl, hd, hr, hloop, ?_⟩
        have ht : (V ++ [u]).take (V.length + 1 - 1) = V := by simp
        rw [ht]
        exact hV

theorem units_match_last_block (V : List RUnit) (s : List Char) :
    units_match V s ↔
      (s = [] ∧ all_optional V) ∨
        ∃ j, 1 ≤ j ∧ j ≤ V.length ∧ all_optional (V.drop j) ∧ act_spec V j s := by
  constructor
  · exact units_match_last_block_fwd V s
  · rintro (⟨rfl, hall⟩ | ⟨j, h1, h2, hdrop, hact⟩)
    · exact (units_match_nil_str V).mpr hall
    · obtain ⟨u, hu, t, c, r, rfl, hd, hr, hloop, hpre⟩ := hact
      have hjlt : j - 1 < V.length := by omega
      have hdecomp : V = V.take (j - 1) ++ u :: V.drop j := by
        have h6 : V.drop (j - 1) = u :: V.drop j := by
          rw [List.drop_eq_getElem_cons hjlt]
          have h7 : V[j - 1]? = some (V[j - 1]) := List.getElem?_eq_getElem hjlt
          rw [hu] at h7
          have h8 : u = V[j - 1] := Option.some.inj h7
          rw [← h8]
          have h9 : j - 1 + 1 = j := by omega
          rw [h9]
        conv_lhs => rw [← List.take_append_drop (j - 1) V, h6]
      rw [hdecomp]
      apply (units_match_append _ _ _).mpr
      refine ⟨t, c :: r, rfl, hpre, ?_⟩
      refine ⟨c :: r, [], by simp, unit_matches_block u c r hd hr hloop, ?_⟩
      exact (units_match_nil_str _).mpr hdrop

/-! Matcher lemmas over a built automaton. -/

theorem atom_kind_not_term (a : Atom) : is_termination (atom_kind a) = false := by
  cases a <;> rfl

theorem spec_kindAt_zero (us : List RUnit) (m : RegexFSM)
    (hkinds : m.kinds = .startState ::
      (us.map (fun u => atom_kind u.atom) ++ [.terminationState])) :
    m.kindAt 0 = .startState := by
  unfold RegexFSM.kindAt
  rw [hkinds]
  rfl

theorem spec_kindAt_unit (us : List RUnit) (m : RegexFSM)
    (hkinds : m.kinds = .startState ::
      (us.map (fun u => atom_kind u.atom) ++ [.terminationState]))
    (j : Nat) (h1 : 1 ≤ j) (h2 : j ≤ us.length) (u : RUnit)
    (hu : us[j - 1]? = some u) :
    m.kindAt j = atom_kind u.atom := by
  unfold RegexFSM.kindAt
  rw [hkinds]
  cases j with
  | zero => omega
  | succ j2 =>
    have hu2 : us[j2]? = some u := by simpa using hu
    rw [List.getD_cons_succ, List.getD_eq_getElem?_getD,
      List.getElem?_append_left (by simp; omega), List.getElem?_map, hu2]
    rfl

theorem spec_kindAt_term (us : List RUnit) (m : RegexFSM)
    (hkinds : m.kinds = .startState ::
      (us.map (fun u => atom_kind u.atom) ++ [.terminationState])) :
    m.kindAt (us.length + 1) = .terminationState := by
  unfold RegexFSM.kindAt
  rw [hkinds, List.getD_cons_succ, List.getD_eq_getElem?_getD]
  have he : (us.map (fun u => atom_kind u.atom) ++
      [StateKind.terminationState])[us.length]? = some .terminationState := by
    rw [List.getElem?_append_right (by simp)]
    simp
  rw [he]
  rfl

theorem spec_kindAt_big (us : List RUnit) (m : RegexFSM)
    (hkinds : m.kinds = .startState ::
      (us.map (fun u => atom_kind u.atom) ++ [.terminationState]))
    (j : Nat) (h : us.length + 1 < j) :
    m.kindAt j = .startState := by
  unfold RegexFSM.kindAt
  rw [hkinds, List.getD_eq_getElem?_getD]
  rw [List.getElem?_eq_none (by simp; omega)]
  rfl

theorem spec_is_term (us : List RUnit) (m : RegexFSM)
    (hkinds : m.kinds = .startState ::
      (us.map (fun u => atom_kind u.atom) ++ [.terminationState]))
    (j : Nat) :
    is_termination (m.kindAt j) = true ↔ j = us.length + 1 := by
  constructor
  · intro h
    by_contra hne
    rcases Nat.lt_or_ge j 1 with hj | hj
    · have hj0 : j = 0 := by omega
      subst hj0
      rw [spec_kindAt_zero us m hkinds] at h
      cases h
    · rcases Nat.lt_or_ge j (us.length + 1) with hj2 | hj2
      · have hjlt : j - 1 < us.length := by omega
        obtain ⟨u, hu⟩ : ∃ u, us[j - 1]? = some u :=
          ⟨_, List.getElem?_eq_getElem hjlt⟩
        rw [spec_kindAt_unit us m hkinds j hj (by omega) u hu] at h
        rw [atom_kind_not_term] at h
        cases h
      · have hj3 : us.length + 1 < j := by omega
        rw [spec_kindAt_big us m hkinds j hj3] at h
        cases h
  · intro h
    subst h
    rw [spec_kindAt_term us m hkinds]
    rfl

theorem mem_check_next (m : RegexFSM) (i : Nat) (c : Char) (j : Nat) :
    j ∈ check_next m i c ↔
      is_termination (m.kindAt i) = false ∧ j ∈ m.nextAt i ∧
        check_self (m.kindAt j) c = true := by
  unfold check_next
  cases hk : m.kindAt i <;> simp [is_termination, List.mem_filter]

theorem run_states_nil (m : RegexFSM) : run_states m [] = [0] := rfl

theorem run_states_snoc (m : RegexFSM) (s : List Char) (c : Char) :
    run_states m (s ++ [c]) =
      (run_states m s).flatMap (fun i => check_next m i c) := by
  unfold run_states
  rw [List.foldl_append]
  rfl

theorem edge_built_bound (us : List RUnit) (i j : Nat)
    (h : edge_rel_built us i j) : j ≤ us.length + 1 := by
  rcases h with (⟨k, hk, rfl, _⟩ | ⟨rfl, u, _, h1, h2, _⟩) | ⟨rfl, _⟩
  · omega
  · omega
  · omega

theorem edge_built_no_zero (us : List RUnit) (i : Nat) :
    ¬ edge_rel_built us i 0 := by
  rintro ((⟨k, hk, hk0, _⟩ | ⟨rfl, u, _, h1, h2, _⟩) | ⟨h0, _⟩)
  · omega
  · omega
  · omega

theorem edge_built_unit (us : List RUnit) (i j : Nat) (h1 : 1 ≤ j) (h2 : j ≤ us.length) :
    edge_rel_built us i j ↔
      fringe (us.take (j - 1)) i ∨
        (i = j ∧ ∃ u, us[j - 1]? = some u ∧
          (u.quant = some .star ∨ u.quant = some .plus)) := by
  constructor
  · rintro ((⟨k, hk, hkj, hf⟩ | ⟨rfl, u, hu, hi1, hi2, hq⟩) | ⟨hj, _⟩)
    · have : k = j - 1 := by omega
      subst this
      exact Or.inl hf
    · exact Or.inr ⟨rfl, u, hu, hq⟩
    · omega
  · rintro (hf | ⟨rfl, u, hu, hq⟩)
    · exact Or.inl (Or.inl ⟨j - 1, by omega, by omega, hf⟩)
    · exact Or.inl (Or.inr ⟨rfl, u, hu, h1, h2, hq⟩)

theorem edge_built_term (us : List RUnit) (i : Nat) :
    edge_rel_built us i (us.length + 1) ↔ fringe us i := by
  constructor
  · rintro ((⟨k, hk, hkj, hf⟩ | ⟨rfl, u, hu, hi1, hi2, hq⟩) | ⟨_, hf⟩)
    · omega
    · omega
    · exact hf
  · intro hf
    exact Or.inr ⟨rfl, hf⟩

theorem fringe_reach (us : List RUnit) (m : RegexFSM) (s : List Char) (k : Nat)
    (hk : k ≤ us.length)
    (IH0 : 0 ∈ run_states m s ↔ s = [])
    (IHu : ∀ j, 1 ≤ j → j ≤ us.length → (j ∈ run_states m s ↔ act_spec us j s)) :
    (∃ x, fringe (us.take k) x ∧ x ∈ run_states m s) ↔
      units_match (us.take k) s := by
  rw [units_match_last_block]
  constructor
  · rintro ⟨x, hf, hx⟩
    rcases hf with ⟨rfl, hall⟩ | ⟨h1, h2, hdrop⟩
    · exact Or.inl ⟨IH0.mp hx, hall⟩
    · have hxk : x ≤ k := by
        simp at h2
        omega
      refine Or.inr ⟨x, h1, h2, hdrop, ?_⟩
      rw [act_spec_take us k x h1 hxk hk]
      exact (IHu x h1 (by omega)).mp hx
  · rintro (⟨rfl, hall⟩ | ⟨j, h1, h2, hdrop, hact⟩)
    · exact ⟨0, Or.inl ⟨rfl, hall⟩, IH0.mpr rfl⟩
    · have hjk : j ≤ k := by
        simp at h2
        omega
      refine ⟨j, Or.inr ⟨h1, h2, hdrop⟩, ?_⟩
      apply (IHu j h1 (by omega)).mpr
      rw [← act_spec_take us k j h1 hjk hk]
      exact hact

theorem run_states_inv (us : List RUnit) (m : RegexFSM) (hspec : built_fsm_spec us m)
    (s : List Char) :
    (0 ∈ run_states m s ↔ s = []) ∧
    (∀ j, 1 ≤ j → j ≤ us.length → (j ∈ run_states m s ↔ act_spec us j s)) ∧
    (∀ j, j ∈ run_states m s → j ≤ us.length + 1) := by
  obtain ⟨hkinds, hlen, hedge⟩ := hspec
  induction s using List.reverseRecOn with
  | nil =>
    refine ⟨by simp [run_states_nil], ?_, ?_⟩
    · intro j h1 h2
      rw [run_states_nil]
      simp only [List.mem_singleton]
      constructor
      · intro h
        omega
      · intro h
        exact absurd h (act_spec_nil us j)
    · intro j hj
      rw [run_states_nil] at hj
      simp at hj
      omega
  | append_singleton s c ih =>
    obtain ⟨IH0, IHu, IHb⟩ := ih
    have hmem : ∀ j, j ∈ run_states m (s ++ [c]) ↔
        ∃ x ∈ run_states m s, j ∈ check_next m x c := by
      intro j
      rw [run_states_snoc, List.mem_flatMap]
    refine ⟨?_, ?_, ?_⟩
    · rw [hmem 0]
      constructor
      · rintro ⟨x, hx, hcn⟩
        obtain ⟨_, hnext, _⟩ := (mem_check_next m x c 0).mp hcn
        exact absurd ((hedge x 0).mp hnext) (edge_built_no_zero us x)
      · intro h
        exact absurd h (by simp)
    · intro j h1 h2
      have hjlt : j - 1 < us.length := by omega
      obtain ⟨u, hu⟩ : ∃ u, us[j - 1]? = some u :=
        ⟨_, List.getElem?_eq_getElem hjlt⟩
      have hkj : m.kindAt j = atom_kind u.atom :=
        spec_kindAt_unit us m hkinds j h1 h2 u hu
      rw [hmem j, act_spec_snoc us j u hu s c]
      constructor
      · rintro ⟨x, hx, hcn⟩
        obtain ⟨hxt, hnext, hself⟩ := (mem_check_next m x c j).mp hcn
        rw [hkj] at hself
        rcases (edge_built_unit us x j h1 h2).mp ((hedge x j).mp hnext) with
          hf | ⟨rfl, u2, hu2, hq⟩
        · refine ⟨hself, Or.inl ?_⟩
          exact (fringe_reach us m s (j - 1) (by omega) IH0 IHu).mp ⟨x, hf, hx⟩
        · rw [hu] at hu2
          obtain rfl : u = u2 := Option.some.inj hu2
          exact ⟨hself, Or.inr ⟨hq, (IHu x h1 h2).mp hx⟩⟩
      · rintro ⟨hacc, hre | ⟨hq, hact⟩⟩
        · obtain ⟨x, hf, hx⟩ :=
            (fringe_reach us m s (j - 1) (by omega) IH0 IHu).mpr hre
          refine ⟨x, hx, (mem_check_next m x c j).mpr ⟨?_, ?_, ?_⟩⟩
          · have hxb := fringe_bound _ x hf
            have hxn : x ≤ us.length := by
              simp at hxb
              omega
            rcases Bool.eq_false_or_eq_true (is_termination (m.kindAt x)) with hb | hb
            · exfalso
              have := (spec_is_term us m hkinds x).mp hb
              omega
            · exact hb
          · exact (hedge x j).mpr ((edge_built_unit us x j h1 h2).mpr (Or.inl hf))
          · rw [hkj]
            exact hacc
        · refine ⟨j, (IHu j h1 h2).mpr hact, (mem_check_next m j c j).mpr ⟨?_, ?_, ?_⟩⟩
          · rw [hkj]
            exact atom_kind_not_term u.atom
          · exact (hedge j j).mpr
              ((edge_built_unit us j j h1 h2).mpr (Or.inr ⟨rfl, u, hu, hq⟩))
          · rw [hkj]
            exact hacc
    · intro j hj
      obtain ⟨x, hx, hcn⟩ := (hmem j).mp hj
      obtain ⟨_, hnext, _⟩ := (mem_check_next m x c j).mp hcn
      exact edge_built_bound us x j ((hedge x j).mp hnext)

/-- Bridge theorem: on an automaton built from the grammatical pattern `us`,
the matcher accepts a string exactly when the string is in the language of
`us`. -/
theorem check_string_iff_units (us : List RUnit) (m : RegexFSM)
    (hspec : built_fsm_spec us m) (s : List Char) :
    check_string m (.str s) = .ok true ↔ units_match us s := by
  obtain ⟨hkinds, hlen, hedge⟩ := hspec
  show Except.ok ((run_states m s).any
    (fun i => (m.nextAt i).any (fun j => is_termination (m.kindAt j)))) = .ok true ↔ _
  rw [Except.ok.injEq, List.any_eq_true]
  have h1 : ∀ i, ((m.nextAt i).any (fun j => is_termination (m.kindAt j)) = true) ↔
      fringe us i := by
    intro i
    rw [List.any_eq_true]
    constructor
    · rintro ⟨j, hj, hterm⟩
      have hj2 : j = us.length + 1 := (spec_is_term us m hkinds j).mp hterm
      subst hj2
      exact (edge_built_term us i).mp ((hedge i _).mp hj)
    · intro hf
      refine ⟨us.length + 1, (hedge i _).mpr ((edge_built_term us i).mpr hf), ?_⟩
      rw [spec_kindAt_term us m hkinds]
      rfl
  obtain ⟨IH0, IHu, _⟩ := run_states_inv us m ⟨hkinds, hlen, hedge⟩ s
  have h2 := fringe_reach us m s us.length (le_refl _) IH0 IHu
  rw [List.take_length] at h2
  constructor
  · rintro ⟨i, hi, hterm⟩
    exact h2.mp ⟨i, (h1 i).mp hterm, hi⟩
  · intro hm
    obtain ⟨x, hf, hx⟩ := h2.mpr hm
    exact ⟨x, hx, (h1 x).mpr hf⟩

theorem check_string_empty (m : RegexFSM) :
    check_string m (.str []) =
      .ok ((m.nextAt 0).any (fun j => is_termination (m.kindAt j))) := by
  show Except.ok _ = _
  congr 1
  show (run_states m []).any _ = _
  rw [run_states_nil]
  simp

/-- C2: an automaton compiled from any pattern accepts the empty string
exactly when the Start state has a `TerminationState` successor (was marked
accepting); and for a pattern in the documented grammar (a sequence of units),
the empty string is accepted exactly when every unit is quantified with
`*` or `?` (vacuously, when the pattern is empty). -/
theorem c2_empty_string_acceptance (p : List Char) (m : RegexFSM)
    (hinit : regex_fsm_init p = .ok m) :
    (check_string m (.str []) = .ok true ↔
      (m.nextAt 0).any (fun j => is_termination (m.kindAt j)) = true) ∧
    (∀ us : List RUnit, wf_units us →
      get_tokens_from_pattern p = .ok (units_tokens us) →
      (check_string m (.str []) = .ok true ↔ all_optional us)) := by
  constructor
  · rw [check_string_empty]
    rw [Except.ok.injEq]
  · intro us hwf htok
    obtain ⟨m2, hinit2, hspec⟩ := regex_init_units p us hwf htok
    rw [hinit] at hinit2
    obtain rfl : m = m2 := Except.ok.inj hinit2
    rw [check_string_iff_units us m hspec [], units_match_nil_str]

/-- C1: in a grammatical pattern, a `+`-quantified atom requires at least one
input character accepted by that atom at its position (every accepted string
splits with a nonempty block of characters accepted by the atom between a
prefix matching the preceding units and a suffix matching the following
ones), while replacing the `+` by `*` or `?` makes the zero-occurrence
strings accepted. -/
theorem c1_quantifier_semantics (us vs : List RUnit) (X : Atom)
    (hwfu : wf_units us) (hwfv : wf_units vs) (hwfX : wf_atom X) :
    (∀ (p : List Char) (m : RegexFSM),
      get_tokens_from_pattern p = .ok (units_tokens (us ++ ⟨X, some .plus⟩ :: vs)) →
      regex_fsm_init p = .ok m →
      ∀ s : List Char, check_string m (.str s) = .ok true →
        ∃ s1 b s2, s = s1 ++ b ++ s2 ∧ b ≠ [] ∧ (∀ c ∈ b, atom_accepts X c) ∧
          units_match us s1 ∧ units_match vs s2) ∧
    (∀ q : Quant, q = .star ∨ q = .qmark →
      ∀ (p : List Char) (m : RegexFSM),
      get_tokens_from_pattern p = .ok (units_tokens (us ++ ⟨X, some q⟩ :: vs)) →
      regex_fsm_init p = .ok m →
      ∀ s1 s2 : List Char, units_match us s1 → units_match vs s2 →
        check_string m (.str (s1 ++ s2)) = .ok true) := by
  have hwf_mid : ∀ q : Quant, wf_units (us ++ ⟨X, some q⟩ :: vs) := by
    intro q v hv
    rcases List.mem_append.mp hv with h | h
    · exact hwfu v h
    · rcases List.mem_cons.mp h with rfl | h2
      · exact hwfX
      · exact hwfv v h2
  constructor
  · intro p m htok hinit s hacc
    obtain ⟨m2, hinit2, hspec⟩ := regex_init_units p _ (hwf_mid .plus) htok
    rw [hinit] at hinit2
    obtain rfl : m = m2 := Except.ok.inj hinit2
    have hm := (check_string_iff_units _ m hspec s).mp hacc
    obtain ⟨s1, s23, rfl, h1, h23⟩ := (units_match_append us _ s).mp hm
    simp only [units_match] at h23
    obtain ⟨b, s2, rfl, hb, h2⟩ := h23
    obtain ⟨hbne, hball⟩ := hb
    exact ⟨s1, b, s2, by simp, hbne, hball, h1, h2⟩
  · intro q hq p m htok hinit s1 s2 h1 h2
    obtain ⟨m2, hinit2, hspec⟩ := regex_init_units p _ (hwf_mid q) htok
    rw [hinit] at hinit2
    obtain rfl : m = m2 := Except.ok.inj hinit2
    apply (check_string_iff_units _ m hspec _).mpr
    apply (units_match_append us _ _).mpr
    refine ⟨s1, s2, rfl, h1, ?_⟩
    simp only [units_match]
    refine ⟨[], s2, rfl, ?_, h2⟩
    apply (unit_matches_nil _).mpr
    unfold optional_quant
    rcases hq with rfl | rfl
    · simp
    · simp

/-! Claim C6 and the tokenizer/class claims. -/

/-- C6: the automaton compiled from the pattern `a[^bc]d*e` accepts `afde`
and rejects `abde` and `agggge` (matching the repository's own test file). -/
theorem c6_concrete_scenarios :
    compile_and_check ("a[^bc]d*e".toList) ("afde".toList) = .ok true ∧
    compile_and_check ("a[^bc]d*e".toList) ("abde".toList) = .ok false ∧
    compile_and_check ("a[^bc]d*e".toList) ("agggge".toList) = .ok false :=
  ⟨rfl, rfl, rfl⟩

/-- C5: on every successfully compiled automaton the matcher raises the
input-type error on non-string input, and returns a boolean without raising
on every string input. -/
theorem c5_matcher_type_check (p : List Char) (m : RegexFSM)
    (_hinit : regex_fsm_init p = .ok m) :
    check_string m .nonString = .error .typeError ∧
    ∀ s : List Char, ∃ b : Bool, check_string m (.str s) = .ok b :=
  ⟨rfl, fun _ => ⟨_, rfl⟩⟩

theorem c5_matcher_type_check_witness :
    regex_fsm_init ['a', 'b'] =
      .ok ((regex_fsm_init ['a', 'b']).toOption.getD ⟨[], []⟩) ∧
    check_string ((regex_fsm_init ['a', 'b']).toOption.getD ⟨[], []⟩) .nonString =
      .error .typeError :=
  ⟨rfl, (c5_matcher_type_check ['a', 'b'] _ rfl).1⟩

/-- C4: the claimed tokenizer contract fails on the code.  Tokenizing `[ab]`
(a terminated class, but with `]` as the last character of the pattern)
raises the unterminated-class error; the same class followed by another
character tokenizes fine; and a lone `[` (genuinely unterminated) does not
raise but is emitted as a one-character token. -/
theorem c4_tokenizer_behaviour :
    get_tokens_from_pattern ("[ab]".toList) = .error .syntaxError ∧
    get_tokens_from_pattern ("[ab]x".toList) = .ok ["[ab]".toList, ['x']] ∧
    get_tokens_from_pattern ['['] = .ok [['[']] :=
  ⟨rfl, rfl, rfl⟩

/-- C3: compiling the pattern `[^bc]` alone raises the tokenizer error (the
closing bracket is the final character), so the claimed end-to-end matching
never happens; the class state built from the token `[^bc]` itself does
accept exactly the complement of `{b, c}` within `string_printable`. -/
theorem c3_negated_class :
    regex_fsm_init ("[^bc]".toList) = .error .syntaxError ∧
    (∀ c : Char,
      check_self
        (.bracketClassState ("[^bc]".toList) (class_symbols ("[^bc]".toList))) c = true ↔
        c ∈ string_printable ∧ c ≠ 'b' ∧ c ≠ 'c') := by
  refine ⟨rfl, ?_⟩
  intro c
  show (class_symbols ("[^bc]".toList)).contains c = true ↔ _
  have he : class_symbols ("[^bc]".toList) =
      string_printable.filter (fun c => ¬ (['b', 'c'].contains c)) := rfl
  rw [he, List.elem_iff, List.mem_filter]
  simp

/-! Claim C7: reversed ranges. -/

theorem char_range_rev (a b : Char) (h : b.toNat < a.toNat) : char_range a b = [] := by
  unfold char_range
  rw [show b.toNat + 1 - a.toNat = 0 by omega]
  rfl

theorem collect_allowed_triple (a b : Char) (r : List Char) :
    collect_allowed (a :: '-' :: b :: r) = char_range a b ++ collect_allowed r := by
  rw [collect_allowed, if_pos rfl]

theorem collect_allowed_single (x : Char) (r : List Char)
    (h : ¬ triple_head (x :: r)) :
    collect_allowed (x :: r) = x :: collect_allowed r := by
  match r with
  | [] => rfl
  | [y] => rfl
  | y :: z :: r2 =>
    have hy : ¬ y = '-' := h
    rw [collect_allowed, if_neg hy]

theorem del_triple_collect (a b : Char) (h : b.toNat < a.toNat) :
    ∀ C C2 : List Char, del_triple a b C C2 →
      collect_allowed C = collect_allowed C2 := by
  intro C C2 hd
  induction hd with
  | head rest =>
    rw [collect_allowed_triple, char_range_rev a b h]
    rfl
  | cons_triple x y rest rest2 hd ih =>
    rw [collect_allowed_triple, collect_allowed_triple, ih]
  | cons_single x rest rest2 hd hnt hnt2 ih =>
    rw [collect_allowed_single x rest hnt, collect_allowed_single x rest2 hnt2, ih]

/-- C7-counterexample: deleting the reversed triple `z-a` from the class
token `[z-a^x]` yields `[^x]`, whose symbol set is not the same: the first
class does not contain the letter a, the second does (the deletion exposed a
leading `^` and turned the class into a negated one). -/
theorem c7_reversed_range_cex :
    (get_symbols_from_class ("[z-a^x]".toList)).map (fun l => l.contains 'a') =
      .ok false ∧
    (get_symbols_from_class ("[^x]".toList)).map (fun l => l.contains 'a') =
      .ok true :=
  ⟨rfl, rfl⟩

/-- C7 (amended): class resolution of a bracket token containing a
scan-aligned reversed range triple does not fail, the reversed range
contributes no characters, and the symbol set equals that of the token with
the triple deleted, provided the deletion leaves the parse of the remaining
content unchanged (the `del_triple` guards) and does not expose a leading
negation marker. -/
theorem c7_reversed_range_amended (a b : Char) (C C2 : List Char) (neg : Bool)
    (hd : del_triple a b C C2) (hrev : b.toNat < a.toNat)
    (h1 : C.head? ≠ some '^') (h2 : C2.head? ≠ some '^') :
    ∃ syms,
      get_symbols_from_class ('[' :: ((if neg then '^' :: C else C) ++ [']'])) =
        .ok syms ∧
      get_symbols_from_class ('[' :: ((if neg then '^' :: C2 else C2) ++ [']'])) =
        .ok syms := by
  have hcollect := del_triple_collect a b hrev C C2 hd
  have hshape : ∀ L : List Char,
      ('[' :: (L ++ [']'])).head? = some '[' ∧
      ('[' :: (L ++ [']'])).getLast? = some ']' := by
    intro L
    refine ⟨rfl, ?_⟩
    rw [← List.cons_append]
    exact List.getLast?_concat _
  have hsym : ∀ L : List Char, L.head? ≠ some '^' →
      class_symbols ('[' :: ((if neg then '^' :: L else L) ++ [']'])) =
        (if neg then
          string_printable.filter (fun c => ¬ (collect_allowed L).contains c)
         else collect_allowed L) := by
    intro L hL
    unfold class_symbols
    have hcont : (('[' :: ((if neg then '^' :: L else L) ++ [']'])).drop 1).dropLast
        = (if neg then '^' :: L else L) := by
      show ((if neg then '^' :: L else L) ++ [']']).dropLast = _
      simp
    rw [hcont]
    cases neg with
    | true =>
      simp [strip_negate]
    | false =>
      simp only [Bool.false_eq_true, if_false]
      cases L with
      | nil => simp [strip_negate]
      | cons c r =>
        have hc : ¬ c = '^' := by
          intro hc
          exact hL (by rw [hc]; rfl)
        simp [strip_negate, hc]
  refine ⟨(if neg then
      string_printable.filter (fun c => ¬ (collect_allowed C).contains c)
    else collect_allowed C), ?_, ?_⟩
  · rw [get_symbols_ok _ (hshape _), hsym C h1]
  · rw [get_symbols_ok _ (hshape _), hsym C2 h2, ← hcollect]

theorem c7_reversed_range_amended_witness :
    ∃ syms,
      get_symbols_from_class ('[' :: ((if false then '^' :: ['z', '-', 'a', 'q']
          else ['z', '-', 'a', 'q']) ++ [']'])) = .ok syms ∧
      get_symbols_from_class ('[' :: ((if false then '^' :: ['q']
          else ['q']) ++ [']'])) = .ok syms :=
  c7_reversed_range_amended 'z' 'a' ['z', '-', 'a', 'q'] ['q'] false
    (del_triple.head ['q']) (by decide) (by decide) (by decide)

theorem c2_empty_string_acceptance_witness :
    regex_fsm_init ['a', '*'] =
      .ok ((regex_fsm_init ['a', '*']).toOption.getD ⟨[], []⟩) ∧
    (check_string ((regex_fsm_init ['a', '*']).toOption.getD ⟨[], []⟩) (.str []) =
        .ok true ↔
      all_optional [⟨Atom.lit 'a', some .star⟩]) := by
  refine ⟨rfl, ?_⟩
  exact (c2_empty_string_acceptance ['a', '*'] _ rfl).2 [⟨Atom.lit 'a', some .star⟩]
    (by
      intro v hv
      obtain rfl := List.mem_singleton.mp hv
      exact ⟨by decide, by decide, by decide, by decide, by decide⟩)
    rfl

theorem c1_quantifier_semantics_witness :
    (∃ s1 b s2, ['a'] = s1 ++ b ++ s2 ∧ b ≠ [] ∧
      (∀ c ∈ b, atom_accepts (Atom.lit 'a') c) ∧
      units_match [] s1 ∧ units_match [] s2) ∧
    check_string ((regex_fsm_init ['a', '*']).toOption.getD ⟨[], []⟩)
      (.str ([] ++ [])) = .ok true := by
  have hwfe : wf_units ([] : List RUnit) := by
    intro v hv
    cases hv
  have hwfa : wf_atom (Atom.lit 'a') :=
    ⟨by decide, by decide, by decide, by decide, by decide⟩
  constructor
  · exact (c1_quantifier_semantics [] [] (Atom.lit 'a') hwfe hwfe hwfa).1
      ['a', '+'] _ rfl rfl ['a'] rfl
  · exact (c1_quantifier_semantics [] [] (Atom.lit 'a') hwfe hwfe hwfa).2
      .star (Or.inl rfl) ['a', '*'] _ rfl rfl [] [] rfl rfl

/-! Frame lemmas: matching and export do not modify the automaton. -/

theorem run_states_mut_frame (m : RegexFSM) (s : List Char) :
    run_states_mut m s = (run_states m s, m) := by
  unfold run_states_mut run_states
  suffices h : ∀ (l : List Char) (acc : List Nat),
      l.foldl (fun acc c => (acc.1.flatMap (fun i => check_next acc.2 i c), acc.2)) (acc, m)
        = (l.foldl (fun states c => states.flatMap (fun i => check_next m i c)) acc, m) by
    exact h s [0]
  intro l
  induction l with
  | nil => intro acc; rfl
  | cons c l ih =>
    intro acc
    rw [List.foldl_cons, List.foldl_cons]
    exact ih _

theorem check_string_mut_frame (m : RegexFSM) (msg : MatcherInput) :
    check_string_mut m msg = (check_string m msg, m) := by
  cases msg with
  | nonString => rfl
  | str s =>
    show (let r := run_states_mut m s;
        (Except.ok (r.1.any fun i =>
          (r.2.nextAt i).any fun j => is_termination (r.2.kindAt j)), r.2)) =
      (check_string m (.str s), m)
    rw [run_states_mut_frame]
    rfl

theorem to_dot_loop_frame (m : RegexFSM) :
    ∀ (fuel : Nat) (st : DotSt) (visited : List Nat),
      (to_dot_loop m fuel st visited).2 = m := by
  intro fuel
  induction fuel with
  | zero =>
    intro st visited
    rfl
  | succ f ih =>
    intro st visited
    rw [to_dot_loop]
    split
    · rfl
    · split
      · exact ih _ _
      · exact ih _ _

theorem to_dot_file_frame (m : RegexFSM) : (to_dot_file m).2 = m := by
  unfold to_dot_file
  exact to_dot_loop_frame m _ _ _

/-- C8: on every compiled automaton, running the matcher (on a string or a
non-string) and running the DOT exporter return the automaton exactly as it
was: the state-threaded variants leave every state's `next_states` (and every
other field) unchanged, and the threaded matcher agrees with the plain one. -/
theorem c8_no_mutation (p : List Char) (m : RegexFSM)
    (_hinit : regex_fsm_init p = .ok m) :
    (∀ msg : MatcherInput, (check_string_mut m msg).2 = m ∧
      (check_string_mut m msg).1 = check_string m msg) ∧
    (to_dot_file m).2 = m := by
  refine ⟨?_, to_dot_file_frame m⟩
  intro msg
  rw [check_string_mut_frame]
  exact ⟨rfl, rfl⟩

theorem c8_no_mutation_witness :
    regex_fsm_init ['a', 'b'] =
      .ok ((regex_fsm_init ['a', 'b']).toOption.getD ⟨[], []⟩) ∧
    (to_dot_file ((regex_fsm_init ['a', 'b']).toOption.getD ⟨[], []⟩)).2 =
      (regex_fsm_init ['a', 'b']).toOption.getD ⟨[], []⟩ :=
  ⟨rfl, (c8_no_mutation ['a', 'b'] _ rfl).2⟩

/-! Builder facts for arbitrary token sequences. -/

theorem arena_ok_start : arena_ok build_start := by
  refine ⟨rfl, rfl, by decide, ?_⟩
  intro x hx
  obtain rfl := List.mem_singleton.mp hx
  decide

theorem head?_append_singleton (l : List StateKind) (k : StateKind)
    (h : l ≠ []) : (l ++ [k]).head? = l.head? := by
  cases l with
  | nil => exact absurd rfl h
  | cons a r => rfl

/-- Closed form of every successful `init_next_state` result: a concrete
state wired from the current fringe, a `*` or `+` self-loop, or the `?`
no-edge step. -/
theorem init_next_state_shape (st st2 : BuildState) (t : List Char)
    (h : init_next_state st t = .ok st2) :
    (∃ k, st2 = ⟨add_edges (add_state st.fsm k).1
        (if st.necessary then [st.tmp_next_state] else st.prev_states)
        st.fsm.kinds.length,
      (if st.necessary then [st.tmp_next_state] else st.prev_states),
      st.fsm.kinds.length, true⟩) ∨
    (st2 = ⟨add_edge st.fsm st.tmp_next_state st.tmp_next_state,
      st.prev_states ++ [st.tmp_next_state], st.tmp_next_state, false⟩) ∨
    (st2 = ⟨add_edge st.fsm st.tmp_next_state st.tmp_next_state,
      [st.tmp_next_state], st.tmp_next_state, false⟩) ∨
    (st2 = ⟨st.fsm, st.prev_states ++ [st.tmp_next_state], st.tmp_next_state, false⟩) := by
  unfold init_next_state at h
  by_cases h1 : t.head? = some '[' ∧ t.getLast? = some ']'
  · rw [if_pos h1, get_symbols_ok t h1] at h
    exact Or.inl ⟨_, (Except.ok.inj h).symm⟩
  · rw [if_neg h1] at h
    by_cases h2 : t = termination_token
    · rw [if_pos h2] at h
      exact Or.inl ⟨_, (Except.ok.inj h).symm⟩
    · rw [if_neg h2] at h
      by_cases h3 : t = ['.']
      · rw [if_pos h3] at h
        exact Or.inl ⟨_, (Except.ok.inj h).symm⟩
      · rw [if_neg h3] at h
        by_cases h4 : t = ['*']
        · rw [if_pos h4] at h
          exact Or.inr (Or.inl (Except.ok.inj h).symm)
        · rw [if_neg h4] at h
          by_cases h5 : t = ['+']
          · rw [if_pos h5] at h
            exact Or.inr (Or.inr (Or.inl (Except.ok.inj h).symm))
          · rw [if_neg h5] at h
            by_cases h6 : t = ['?']
            · rw [if_pos h6] at h
              exact Or.inr (Or.inr (Or.inr (Except.ok.inj h).symm))
            · rw [if_neg h6] at h
              by_cases h7 : (t.all fun c => decide (c.toNat < 128)) = true
              · rw [if_pos h7] at h
                exact Or.inl ⟨_, (Except.ok.inj h).symm⟩
              · rw [if_neg h7] at h
                cases h

theorem arena_ok_concrete (st : BuildState) (k : StateKind) (hok : arena_ok st) :
    arena_ok ⟨add_edges (add_state st.fsm k).1
        (if st.necessary then [st.tmp_next_state] else st.prev_states)
        st.fsm.kinds.length,
      (if st.necessary then [st.tmp_next_state] else st.prev_states),
      st.fsm.kinds.length, true⟩ := by
  obtain ⟨hlen, hhead, htmp, hprev⟩ := hok
  have hne : st.fsm.kinds ≠ [] := by
    intro h
    rw [h] at hhead
    cases hhead
  refine ⟨?_, ?_, ?_, ?_⟩
  · show (add_edges _ _ _).nexts.length = (add_edges _ _ _).kinds.length
    rw [nexts_length_add_edges, kinds_add_edges, nexts_length_add_state, kinds_add_state]
    simp
    exact hlen
  · show (add_edges _ _ _).kinds.head? = _
    rw [kinds_add_edges, kinds_add_state, head?_append_singleton _ _ hne]
    exact hhead
  · show st.fsm.kinds.length < (add_edges _ _ _).kinds.length
    rw [kinds_add_edges, kinds_add_state]
    simp
  · intro x hx
    show x < (add_edges _ _ _).kinds.length
    rw [kinds_add_edges, kinds_add_state]
    simp only [List.length_append, List.length_singleton]
    by_cases hn : st.necessary = true
    · rw [if_pos hn] at hx
      obtain rfl := List.mem_singleton.mp hx
      omega
    · rw [if_neg hn] at hx
      have := hprev x hx
      omega

theorem arena_ok_step (st st2 : BuildState) (t : List Char)
    (h : init_next_state st t = .ok st2) (hok : arena_ok st) : arena_ok st2 := by
  obtain ⟨hlen, hhead, htmp, hprev⟩ := hok
  rcases init_next_state_shape st st2 t h with ⟨k, rfl⟩ | rfl | rfl | rfl
  · exact arena_ok_concrete st k ⟨hlen, hhead, htmp, hprev⟩
  · refine ⟨?_, hhead, htmp, ?_⟩
    · show (add_edge _ _ _).nexts.length = (add_edge _ _ _).kinds.length
      rw [nexts_length_add_edge, kinds_add_edge]
      exact hlen
    · intro x hx
      show x < (add_edge _ _ _).kinds.length
      rw [kinds_add_edge]
      rcases List.mem_append.mp hx with h2 | h2
      · exact hprev x h2
      · obtain rfl := List.mem_singleton.mp h2
        exact htmp
  · refine ⟨?_, hhead, htmp, ?_⟩
    · show (add_edge _ _ _).nexts.length = (add_edge _ _ _).kinds.length
      rw [nexts_length_add_edge, kinds_add_edge]
      exact hlen
    · intro x hx
      obtain rfl := List.mem_singleton.mp hx
      exact htmp
  · refine ⟨hlen, hhead, htmp, ?_⟩
    intro x hx
    rcases List.mem_append.mp hx with h2 | h2
    · exact hprev x h2
    · obtain rfl := List.mem_singleton.mp h2
      exact htmp

theorem mem_nextAt_add_edge_mono (m : RegexFSM) (s d i j : Nat)
    (h : j ∈ m.nextAt i) : j ∈ (add_edge m s d).nextAt i := by
  by_cases hs : s < m.nexts.length
  · rw [nextAt_add_edge m s d hs i]
    by_cases hi : i = s
    · subst hi
      rw [if_pos rfl]
      exact List.mem_append_left _ h
    · rw [if_neg hi]
      exact h
  · rw [nextAt_add_edge_out m s d hs i]
    exact h

theorem mem_nextAt_add_edges_mono (srcs : List Nat) (m : RegexFSM) (d i j : Nat)
    (h : j ∈ m.nextAt i) : j ∈ (add_edges m srcs d).nextAt i := by
  induction srcs generalizing m with
  | nil => exact h
  | cons s rest ih =>
    rw [add_edges_cons]
    exact ih _ (mem_nextAt_add_edge_mono m s d i j h)

theorem init_next_state_mono (st st2 : BuildState) (t : List Char)
    (h : init_next_state st t = .ok st2) (i j : Nat) (hm : j ∈ st.fsm.nextAt i) :
    j ∈ st2.fsm.nextAt i := by
  rcases init_next_state_shape st st2 t h with ⟨k, rfl⟩ | rfl | rfl | rfl
  · show j ∈ (add_edges _ _ _).nextAt i
    apply mem_nextAt_add_edges_mono
    rw [nextAt_add_state]
    exact hm
  · exact mem_nextAt_add_edge_mono _ _ _ _ _ hm
  · exact mem_nextAt_add_edge_mono _ _ _ _ _ hm
  · exact hm

theorem build_loop_arena (toks : List (List Char)) :
    ∀ st st2, build_loop st toks = .ok st2 → arena_ok st → arena_ok st2 := by
  induction toks with
  | nil =>
    intro st st2 h hok
    obtain rfl := Except.ok.inj h
    exact hok
  | cons t ts ih =>
    intro st st2 h hok
    cases hstep : init_next_state st t with
    | error e =>
      rw [build_loop, hstep] at h
      cases h
    | ok st1 =>
      rw [build_loop_cons_ok _ _ _ _ hstep] at h
      exact ih st1 st2 h (arena_ok_step st st1 t hstep hok)

theorem build_loop_mono (toks : List (List Char)) :
    ∀ st st2, build_loop st toks = .ok st2 →
      ∀ i j, j ∈ st.fsm.nextAt i → j ∈ st2.fsm.nextAt i := by
  induction toks with
  | nil =>
    intro st st2 h i j hm
    obtain rfl := Except.ok.inj h
    exact hm
  | cons t ts ih =>
    intro st st2 h i j hm
    cases hstep : init_next_state st t with
    | error e =>
      rw [build_loop, hstep] at h
      cases h
    | ok st1 =>
      rw [build_loop_cons_ok _ _ _ _ hstep] at h
      exact ih st1 st2 h i j (init_next_state_mono st st1 t hstep i j hm)

theorem init_ok_of_supported (st : BuildState) (t : List Char)
    (h : supported_token t = true) : ∃ st2, init_next_state st t = .ok st2 := by
  unfold init_next_state
  by_cases h1 : t.head? = some '[' ∧ t.getLast? = some ']'
  · rw [if_pos h1, get_symbols_ok t h1]
    exact ⟨_, rfl⟩
  · rw [if_neg h1]
    by_cases h2 : t = termination_token
    · rw [if_pos h2]
      exact ⟨_, rfl⟩
    · rw [if_neg h2]
      by_cases h3 : t = ['.']
      · rw [if_pos h3]
        exact ⟨_, rfl⟩
      · rw [if_neg h3]
        by_cases h4 : t = ['*']
        · rw [if_pos h4]
          exact ⟨_, rfl⟩
        · rw [if_neg h4]
          by_cases h5 : t = ['+']
          · rw [if_pos h5]
            exact ⟨_, rfl⟩
          · rw [if_neg h5]
            by_cases h6 : t = ['?']
            · rw [if_pos h6]
              exact ⟨_, rfl⟩
            · rw [if_neg h6]
              have hall : (t.all fun c => decide (c.toNat < 128)) = true := by
                unfold supported_token at h
                simp only [Bool.or_eq_true, Bool.and_eq_true, beq_iff_eq] at h
                rcases h with hb | hc
                · exact absurd hb h1
                · exact hc
              rw [if_pos hall]
              exact ⟨_, rfl⟩

theorem build_loop_ok_of_supported (toks : List (List Char)) :
    ∀ st, (∀ t ∈ toks, supported_token t = true) →
      ∃ st2, build_loop st toks = .ok st2 := by
  induction toks with
  | nil =>
    intro st _
    exact ⟨st, rfl⟩
  | cons t ts ih =>
    intro st hsup
    obtain ⟨st1, h1⟩ := init_ok_of_supported st t (hsup t (by simp))
    obtain ⟨st2, h2⟩ := ih st1 (fun v hv => hsup v (by simp [hv]))
    refine ⟨st2, ?_⟩
    rw [build_loop_cons_ok _ _ _ _ h1]
    exact h2

theorem nextAt_add_edge_ne (m : RegexFSM) (s d i : Nat) (h : s ≠ i) :
    (add_edge m s d).nextAt i = m.nextAt i := by
  unfold add_edge RegexFSM.nextAt
  simp only [List.getD_eq_getElem?_getD, List.getElem?_set]
  rw [if_neg h]

theorem nextAt_add_edges_ne (srcs : List Nat) (m : RegexFSM) (d i : Nat)
    (h : ∀ x ∈ srcs, x ≠ i) : (add_edges m srcs d).nextAt i = m.nextAt i := by
  induction srcs generalizing m with
  | nil => rfl
  | cons s rest ih =>
    rw [add_edges_cons, ih _ (fun x hx => h x (by simp [hx])),
      nextAt_add_edge_ne m s d i (h s (by simp))]

theorem check_string_accept_iff (m : RegexFSM) (s : List Char) :
    check_string m (.str s) = .ok true ↔
      ∃ i ∈ run_states m s, ∃ j ∈ m.nextAt i, is_termination (m.kindAt j) = true := by
  show Except.ok _ = Except.ok true ↔ _
  rw [Except.ok.injEq]
  simp [List.any_eq_true]

/-- C9: in every automaton built by `RegexFSM.__init__`, the
`TerminationState` created by the final builder step (the last state of the
arena) has an empty `next_states` list; that list is still empty after
matching and export (which leave the automaton unchanged); and acceptance is
exactly the existence of a final active state with a `TerminationState`
successor — an active `TerminationState` by itself never causes acceptance. -/
theorem c9_termination_state (p : List Char) (m : RegexFSM)
    (hinit : regex_fsm_init p = .ok m) :
    m.kindAt (m.size - 1) = .terminationState ∧
    m.nextAt (m.size - 1) = [] ∧
    (∀ msg : MatcherInput, ((check_string_mut m msg).2).nextAt (m.size - 1) = []) ∧
    ((to_dot_file m).2).nextAt (m.size - 1) = [] ∧
    (∀ s : List Char, check_string m (.str s) = .ok true ↔
      ∃ i ∈ run_states m s, ∃ j ∈ m.nextAt i, is_termination (m.kindAt j) = true) := by
  unfold regex_fsm_init at hinit
  cases ht : get_tokens_from_pattern p with
  | error e =>
    rw [ht] at hinit
    cases hinit
  | ok toks =>
    rw [ht] at hinit
    replace hinit : build_fsm toks = .ok m := hinit
    unfold build_fsm at hinit
    cases hb : build_loop build_start toks with
    | error e =>
      rw [hb] at hinit
      cases hinit
    | ok st =>
      rw [hb] at hinit
      obtain ⟨hlen, hhead, htmp, hprev⟩ :=
        build_loop_arena toks build_start st hb arena_ok_start
      rw [show (match init_next_state st termination_token with
            | .error e => Except.error e
            | .ok st2 => Except.ok st2.fsm) =
          Except.ok (add_edges (add_state st.fsm .terminationState).1
            (if st.necessary then [st.tmp_next_state] else st.prev_states)
            st.fsm.kinds.length) by rw [init_term st]] at hinit
      obtain rfl := Except.ok.inj hinit
      have hWlt : ∀ x ∈ (if st.necessary then [st.tmp_next_state] else st.prev_states),
          x < st.fsm.kinds.length := by
        intro x hx
        by_cases hn : st.necessary = true
        · rw [if_pos hn] at hx
          obtain rfl := List.mem_singleton.mp hx
          exact htmp
        · rw [if_neg hn] at hx
          exact hprev x hx
      have hsize : (add_edges (add_state st.fsm .terminationState).1
          (if st.necessary then [st.tmp_next_state] else st.prev_states)
          st.fsm.kinds.length).size = st.fsm.kinds.length + 1 := by
        unfold RegexFSM.size
        rw [kinds_add_edges, kinds_add_state]
        simp
      have hnext : (add_edges (add_state st.fsm .terminationState).1
          (if st.necessary then [st.tmp_next_state] else st.prev_states)
          st.fsm.kinds.length).nextAt st.fsm.kinds.length = [] := by
        rw [nextAt_add_edges_ne _ _ _ _ (fun x hx => Nat.ne_of_lt (hWlt x hx)),
          nextAt_add_state]
        unfold RegexFSM.nextAt
        rw [List.getD_eq_getElem?_getD, List.getElem?_eq_none (by omega)]
        rfl
      have hkind : (add_edges (add_state st.fsm .terminationState).1
          (if st.necessary then [st.tmp_next_state] else st.prev_states)
          st.fsm.kinds.length).kindAt st.fsm.kinds.length = .terminationState := by
        rw [kindAt_add_edges, kindAt_add_state, if_pos rfl]
      rw [hsize]
      simp only [Nat.add_sub_cancel]
      refine ⟨hkind, hnext, ?_, ?_, ?_⟩
      · intro msg
        rw [check_string_mut_frame]
        exact hnext
      · rw [to_dot_file_frame]
        exact hnext
      · intro s
        exact check_string_accept_iff _ s

theorem c9_termination_state_witness :
    regex_fsm_init ['a', 'b'] =
      .ok ((regex_fsm_init ['a', 'b']).toOption.getD ⟨[], []⟩) ∧
    ((regex_fsm_init ['a', 'b']).toOption.getD ⟨[], []⟩).nextAt
      (((regex_fsm_init ['a', 'b']).toOption.getD ⟨[], []⟩).size - 1) = [] :=
  ⟨rfl, (c9_termination_state ['a', 'b'] _ rfl).2.1⟩

/-- C10: a pattern whose first token is a quantifier compiles without raising
(given the rest of the tokens are supported); for a leading `*` or `+` the
builder installs a self-loop on the Start state; the Start state stays the
`StartState`, whose `check_self` is falsy for every character; and matching
any string on the resulting automaton returns a boolean without raising. -/
theorem c10_leading_quantifier (p : List Char) (q : Char) (rest : List (List Char))
    (hq : q = '*' ∨ q = '+' ∨ q = '?')
    (htok : get_tokens_from_pattern p = .ok ([q] :: rest))
    (hsup : ∀ t ∈ rest, supported_token t = true) :
    ∃ m, regex_fsm_init p = .ok m ∧
      ((q = '*' ∨ q = '+') → 0 ∈ m.nextAt 0) ∧
      m.kindAt 0 = .startState ∧
      (∀ c : Char, check_self (m.kindAt 0) c = false) ∧
      (∀ s : List Char, ∃ b : Bool, check_string m (.str s) = .ok b) := by
  have hstep : ∃ st1, init_next_state build_start [q] = .ok st1 ∧ arena_ok st1 ∧
      ((q = '*' ∨ q = '+') → 0 ∈ st1.fsm.nextAt 0) := by
    rcases hq with rfl | rfl | rfl
    · exact ⟨_, init_star build_start, ⟨rfl, rfl, by decide, by decide⟩,
        fun _ => by decide⟩
    · exact ⟨_, init_plus build_start, ⟨rfl, rfl, by decide, by decide⟩,
        fun _ => by decide⟩
    · refine ⟨_, init_qmark build_start, ⟨rfl, rfl, by decide, by decide⟩, ?_⟩
      rintro (h | h) <;> cases h
  obtain ⟨st1, h1, hok1, hsl⟩ := hstep
  obtain ⟨st2, h2⟩ := build_loop_ok_of_supported rest st1 hsup
  obtain ⟨hlen2, hhead2, htmp2, hprev2⟩ := build_loop_arena rest st1 st2 h2 hok1
  have hne2 : st2.fsm.kinds ≠ [] := by
    intro h
    rw [h] at hhead2
    cases hhead2
  refine ⟨add_edges (add_state st2.fsm .terminationState).1
      (if st2.necessary then [st2.tmp_next_state] else st2.prev_states)
      st2.fsm.kinds.length, ?_, ?_, ?_, ?_, ?_⟩
  · unfold regex_fsm_init
    rw [htok]
    show build_fsm ([q] :: rest) = _
    unfold build_fsm
    rw [build_loop_cons_ok _ _ _ _ h1, h2]
    show (match init_next_state st2 termination_token with
      | .error e => Except.error e
      | .ok st3 => Except.ok st3.fsm) = _
    rw [init_term st2]
  · intro hq2
    apply mem_nextAt_add_edges_mono
    rw [nextAt_add_state]
    exact build_loop_mono rest st1 st2 h2 0 0 (hsl hq2)
  all_goals
    have hk0 : (add_edges (add_state st2.fsm .terminationState).1
        (if st2.necessary then [st2.tmp_next_state] else st2.prev_states)
        st2.fsm.kinds.length).kindAt 0 = .startState := by
      rw [kindAt_add_edges, kindAt_add_state,
        if_neg (fun h => hne2 (List.eq_nil_of_length_eq_zero h.symm))]
      unfold RegexFSM.kindAt
      cases hk : st2.fsm.kinds with
      | nil => exact absurd hk hne2
      | cons a r =>
        rw [hk] at hhead2
        exact Option.some.inj hhead2
  · exact hk0
  · intro c
    rw [hk0]
    rfl
  · intro s
    exact ⟨_, rfl⟩

theorem c10_leading_quantifier_witness :
    ∃ m, regex_fsm_init ['*', 'a'] = .ok m ∧
      (('*' : Char) = '*' ∨ ('*' : Char) = '+' → 0 ∈ m.nextAt 0) ∧
      m.kindAt 0 = .startState ∧
      (∀ c : Char, check_self (m.kindAt 0) c = false) ∧
      (∀ s : List Char, ∃ b : Bool, check_string m (.str s) = .ok b) :=
  c10_leading_quantifier ['*', 'a'] '*' [['a']] (Or.inl rfl) rfl
    (by
      intro t ht
      obtain rfl := List.mem_singleton.mp ht
      decide)
